import Mathlib

/-!
Verification of the LRU cache implementation in `src/lru_cache.c`.

The C code is shallowly embedded: byte buffers become `List Nat`, the
recency-ordered doubly-linked list becomes a Lean list with the head as the
most-recently-used entry, the chained hash table becomes a list of bucket
chains storing the (immutable) keys of live nodes, and machine arithmetic is
carried out on `Nat` with explicit reductions modulo `2 ^ 32` / `2 ^ 64`
where the C code truncates.  Fallible allocations are driven by an explicit
oracle (`AllocOracle`) listing the outcome of each successive allocation
call, so out-of-memory paths are ordinary executions of the model.

The cache owns a redundant `size` field in C that is updated in lockstep
with every linked-list insertion/removal; the model uses `entries.length`
for it.  The `pthread` lock, the pluggable strategy function pointers (the
model fixes the default allocator/hash/compare strategies, which is what
every claim is about) and physical pointer identity are the only parts of
the source not represented.
-/

namespace LRU

/-- Byte buffers: a key or value is its list of bytes; the C `size` argument
is the length of this list. -/
abbrev Buf := List Nat

def U32 : Nat := 2 ^ 32
def U64 : Nat := 2 ^ 64

/-- Result codes of `lru_error_t`. -/
def LRU_SUCCESS : Int := 0
def LRU_ERROR_NOMEM : Int := -1
def LRU_ERROR_INVALID_ARG : Int := -2
def LRU_ERROR_NOT_FOUND : Int := -3
def LRU_ERROR_LOCK : Int := -4
def LRU_ERROR_FULL : Int := -5

/-- The result of `memcmp` on two equal-length buffers: 0 when the bytes
agree, otherwise the signed difference of the first differing bytes. -/
def memcmp_bytes : Buf → Buf → Int
  | [], _ => 0
  | _, [] => 0
  | a :: ra, b :: rb => if a = b then memcmp_bytes ra rb else (a : Int) - (b : Int)

/-- The C expression `(int)(size1 - size2)` where both operands are `size_t`:
the subtraction wraps modulo `2 ^ 64`, and the conversion to `int` keeps the
low 32 bits, reinterpreted as a signed two's-complement value. -/
def size_sub_as_int (s1 s2 : Nat) : Int :=
  let t := ((s1 + U64 - s2) % U64) % U32
  if t < 2 ^ 31 then (t : Int) else (t : Int) - (U32 : Int)

/-- `default_compare` from the source: unequal sizes yield
`(int)(size1 - size2)`, equal sizes are compared with `memcmp`. -/
def default_compare (k1 k2 : Buf) : Int :=
  if k1.length ≠ k2.length then size_sub_as_int k1.length k2.length
  else memcmp_bytes k1 k2

/-- The comparison strategy reports a match exactly when it returns 0. -/
def compareEq (k1 k2 : Buf) : Bool := default_compare k1 k2 == 0

/-- `default_hash`: the djb2 hash over `unsigned long` (64-bit) arithmetic;
`(hash << 5) + hash` is `33 * hash`, wrapping modulo `2 ^ 64`. -/
def default_hash (key : Buf) : Nat :=
  key.foldl (fun h b => (h * 33 + b) % U64) 5381

/-- The or-shift cascade of `calculate_hash_table_size` (shifts by
1, 2, 4, 8, 16 — the source has no 32-bit shift). -/
def smear (s : Nat) : Nat :=
  let s1 := s ||| (s >>> 1)
  let s2 := s1 ||| (s1 >>> 2)
  let s3 := s2 ||| (s2 >>> 4)
  let s4 := s3 ||| (s3 >>> 8)
  s4 ||| (s4 >>> 16)

/-- `calculate_hash_table_size`: `size = (size_t)(capacity / 0.75)` — the
double division truncated to an integer, which is `capacity * 4 / 3` (exact
for every capacity appearing in the theorems below, where the real quotient
is at distance ≥ 1/3 from the nearest larger integer while the double
rounding error is far smaller); then the decrement (wrapping on `size_t`),
the or-shift cascade, and the increment. -/
def calculate_hash_table_size (capacity : Nat) : Nat :=
  let size := capacity * 4 / 3
  (smear ((size + U64 - 1) % U64) + 1) % U64

/-- A cache node: the deep-copied key and value buffers (`key_size` and
`value_size` are the lengths).  The `prev`/`next`/`hash_entry` pointers are
represented by the node's position in `Cache.entries` / the bucket chains. -/
structure Node where
  key : Buf
  value : Buf
deriving DecidableEq, Repr

/-- The `lru_stats_t` block. -/
structure Stats where
  hits : Nat
  misses : Nat
  evictions : Nat
  insertions : Nat
  deletions : Nat
  collisions : Nat
  current_size : Nat
  peak_size : Nat
deriving DecidableEq, Repr

def stats0 : Stats :=
  { hits := 0, misses := 0, evictions := 0, insertions := 0,
    deletions := 0, collisions := 0, current_size := 0, peak_size := 0 }

/-- Allocation oracle: the outcome of each successive allocation / deep-copy
call.  An exhausted plan means every further allocation succeeds. -/
structure AllocOracle where
  plan : List Bool
deriving DecidableEq, Repr

def AllocOracle.next : AllocOracle → Bool × AllocOracle
  | ⟨[]⟩ => (true, ⟨[]⟩)
  | ⟨b :: r⟩ => (b, ⟨r⟩)

/-- The always-succeeding allocator. -/
def okO : AllocOracle := ⟨[]⟩

/-- The `lru_cache_t` state.  `entries` is the recency list, head = MRU,
last = LRU; the C `size` field always equals `entries.length`.  `table` has
`hash_table_size` bucket chains, each chain listing the keys of the nodes
hashed to that bucket (a chain cell's `node` pointer is recovered from the
key, which never changes after node creation).  The eviction callback is
modelled by the flag `has_eviction_fn` plus `evictionLog`, which records, in
order, the (key, value) pairs the callback was invoked with. -/
structure Cache where
  capacity : Nat
  entries : List Node
  hash_table_size : Nat
  table : List (List Buf)
  stats : Stats
  track_stats : Bool
  has_eviction_fn : Bool
  evictionLog : List Node
deriving DecidableEq, Repr

def keysOf (c : Cache) : List Buf := c.entries.map Node.key

/-- `hash_key`: bucket index of a key. -/
def hash_key (c : Cache) (key : Buf) : Nat := default_hash key % c.hash_table_size

def chainOf (c : Cache) (i : Nat) : List Buf := c.table.getD i []

/-- The chain walk of `find_in_hash_table`: returns the stored key of the
first chain cell whose node key compares equal, together with the number of
chain steps taken past a non-matching cell (each such step increments the
collision counter when statistics are enabled). -/
def chainFind : List Buf → Buf → Option Buf × Nat
  | [], _ => (none, 0)
  | k' :: rest, k =>
    if compareEq k' k then (some k', 0)
    else
      let r := chainFind rest k
      (r.1, r.2 + 1)

/-- The chain splice of `remove_from_hash_table`: drop the first matching
cell, counting the same collision increments as the embedded lookup. -/
def chainRemove : List Buf → Buf → List Buf × Nat
  | [], _ => ([], 0)
  | k' :: rest, k =>
    if compareEq k' k then (rest, 0)
    else
      let r := chainRemove rest k
      (k' :: r.1, r.2 + 1)

/-- Add `n` best-effort collision increments (a no-op when statistics are
disabled, exactly as in the source where the increment is guarded by
`track_stats`). -/
def bumpCollisions (c : Cache) (n : Nat) : Cache :=
  if c.track_stats then
    { c with stats := { c.stats with collisions := c.stats.collisions + n } }
  else c

/-- `find_in_hash_table`: walk the bucket chain of the key, counting
collisions; a hit returns the (unique) live node carrying the stored key. -/
def find_in_hash_table (c : Cache) (key : Buf) : Option Node × Cache :=
  let r := chainFind (chainOf c (hash_key c key)) key
  let found : Option Node :=
    match r.1 with
    | some k' => c.entries.find? (fun n => n.key == k')
    | none => none
  (found, bumpCollisions c r.2)

/-- `add_to_hash_table`: allocate a chain cell (one oracle step) and prepend
it to the bucket of the node's key. -/
def add_to_hash_table (c : Cache) (key : Buf) (o : AllocOracle) :
    Int × Cache × AllocOracle :=
  let nx := o.next
  if !nx.1 then (LRU_ERROR_NOMEM, c, nx.2)
  else
    let h := hash_key c key
    (LRU_SUCCESS, { c with table := c.table.set h (key :: chainOf c h) }, nx.2)

/-- `remove_from_hash_table`: re-find the cell (bumping collisions exactly as
the embedded `find_in_hash_table` call does) and splice it out. -/
def remove_from_hash_table (c : Cache) (key : Buf) : Cache :=
  let h := hash_key c key
  let r := chainRemove (chainOf c h) key
  let c1 := bumpCollisions c r.2
  { c1 with table := c1.table.set h r.1 }

/-- `remove_from_list` applied to the node with the given (exact) key. -/
def eraseNode : List Node → Buf → List Node
  | [], _ => []
  | n :: rest, k => if n.key == k then rest else n :: eraseNode rest k

def findNode (es : List Node) (k : Buf) : Option Node :=
  es.find? (fun n => n.key == k)

/-- `move_to_front` of the node with the given key: `remove_from_list`
followed by `add_to_front` (when the node is already the head this produces
the identical list, matching the early return in the source). -/
def move_to_front (c : Cache) (k : Buf) : Cache :=
  match findNode c.entries k with
  | some n => { c with entries := n :: eraseNode c.entries k }
  | none => c

/-- Replace the value buffer of the node with the given key (the in-place
value update of `lru_cache_put` on an existing key). -/
def updateValue : List Node → Buf → Buf → List Node
  | [], _, _ => []
  | n :: rest, k, v =>
    if n.key == k then { n with value := v } :: rest
    else n :: updateValue rest k v

/-- `create_node`: three successive allocations (the node, the key deep
copy, the value deep copy); the first failure aborts, releasing what was
built so far. -/
def create_node (key value : Buf) (o : AllocOracle) : Option Node × AllocOracle :=
  let n1 := o.next
  if !n1.1 then (none, n1.2)
  else
    let n2 := n1.2.next
    if !n2.1 then (none, n2.2)
    else
      let n3 := n2.2.next
      if !n3.1 then (none, n3.2)
      else (some ⟨key, value⟩, n3.2)

/-- `evict_lru`: with an empty list report `LRU_ERROR_NOT_FOUND`; otherwise
invoke the eviction callback (when registered) with the tail node's original
buffers, splice the node out of the hash table and the list, count the
eviction, and destroy the node. -/
def evict_lru (c : Cache) : Int × Cache :=
  match c.entries.getLast? with
  | none => (LRU_ERROR_NOT_FOUND, c)
  | some lru =>
    let c1 := if c.has_eviction_fn then
      { c with evictionLog := c.evictionLog ++ [lru] } else c
    let c2 := remove_from_hash_table c1 lru.key
    let c3 := { c2 with entries := c2.entries.dropLast }
    if c3.track_stats then
      (LRU_SUCCESS, { c3 with stats := { c3.stats with evictions := c3.stats.evictions + 1 } })
    else (LRU_SUCCESS, c3)

/-- `lru_cache_put`. -/
def lru_cache_put (c : Cache) (key value : Buf) (o : AllocOracle) :
    Int × Cache × AllocOracle :=
  if key.length = 0 ∨ value.length = 0 then (LRU_ERROR_INVALID_ARG, c, o)
  else
    let fr := find_in_hash_table c key
    let c0 := fr.2
    match fr.1 with
    | some node =>
      let nx := o.next
      if !nx.1 then (LRU_ERROR_NOMEM, c0, nx.2)
      else
        let c1 := { c0 with entries := updateValue c0.entries node.key value }
        (LRU_SUCCESS, move_to_front c1 node.key, nx.2)
    | none =>
      let cn := create_node key value o
      match cn.1 with
      | none => (LRU_ERROR_NOMEM, c0, cn.2)
      | some node =>
        let ev : Int × Cache :=
          if c0.capacity ≤ c0.entries.length then evict_lru c0
          else (LRU_SUCCESS, c0)
        if ev.1 ≠ LRU_SUCCESS then (ev.1, ev.2, cn.2)
        else
          let ah := add_to_hash_table ev.2 node.key cn.2
          if ah.1 ≠ LRU_SUCCESS then (LRU_ERROR_NOMEM, ah.2.1, ah.2.2)
          else
            let c2 := { ah.2.1 with entries := node :: ah.2.1.entries }
            if c2.track_stats then
              (LRU_SUCCESS,
               { c2 with stats :=
                 { c2.stats with
                   insertions := c2.stats.insertions + 1,
                   current_size := c2.entries.length,
                   peak_size := max c2.stats.peak_size c2.entries.length } },
               ah.2.2)
            else (LRU_SUCCESS, c2, ah.2.2)

/-- `lru_cache_get`: a hit moves the entry to the front and returns a deep
copy of the value (one oracle step); exactly one of the hit / miss counters
is incremented, except that a failing value copy skips the hit counter. -/
def lru_cache_get (c : Cache) (key : Buf) (o : AllocOracle) :
    Int × Option Buf × Cache × AllocOracle :=
  if key.length = 0 then (LRU_ERROR_INVALID_ARG, none, c, o)
  else
    let fr := find_in_hash_table c key
    let c0 := fr.2
    match fr.1 with
    | none =>
      let c1 := if c0.track_stats then
        { c0 with stats := { c0.stats with misses := c0.stats.misses + 1 } } else c0
      (LRU_ERROR_NOT_FOUND, none, c1, o)
    | some node =>
      let c1 := move_to_front c0 node.key
      let nx := o.next
      if !nx.1 then (LRU_ERROR_NOMEM, none, c1, nx.2)
      else
        let c2 := if c1.track_stats then
          { c1 with stats := { c1.stats with hits := c1.stats.hits + 1 } } else c1
        (LRU_SUCCESS, some node.value, c2, nx.2)

/-- `lru_cache_peek`: lookup and deep copy only, no recency-order change and
no hit/miss accounting. -/
def lru_cache_peek (c : Cache) (key : Buf) (o : AllocOracle) :
    Int × Option Buf × Cache × AllocOracle :=
  if key.length = 0 then (LRU_ERROR_INVALID_ARG, none, c, o)
  else
    let fr := find_in_hash_table c key
    let c0 := fr.2
    match fr.1 with
    | none => (LRU_ERROR_NOT_FOUND, none, c0, o)
    | some node =>
      let nx := o.next
      if !nx.1 then (LRU_ERROR_NOMEM, none, c0, nx.2)
      else (LRU_SUCCESS, some node.value, c0, nx.2)

/-- `lru_cache_delete`: remove the found node from the hash table and the
recency list, count the deletion; the eviction callback is never invoked. -/
def lru_cache_delete (c : Cache) (key : Buf) : Int × Cache :=
  if key.length = 0 then (LRU_ERROR_INVALID_ARG, c)
  else
    let fr := find_in_hash_table c key
    let c0 := fr.2
    match fr.1 with
    | none => (LRU_ERROR_NOT_FOUND, c0)
    | some node =>
      let c1 := remove_from_hash_table c0 node.key
      let c2 := { c1 with entries := eraseNode c1.entries node.key }
      if c2.track_stats then
        (LRU_SUCCESS,
         { c2 with stats := { c2.stats with
             deletions := c2.stats.deletions + 1,
             current_size := c2.entries.length } })
      else (LRU_SUCCESS, c2)

/-- `lru_cache_contains`: existence check (its embedded lookup still counts
collisions, exactly as in the source). -/
def lru_cache_contains (c : Cache) (key : Buf) : Bool × Cache :=
  if key.length = 0 then (false, c)
  else
    let fr := find_in_hash_table c key
    (fr.1.isSome, fr.2)

/-- `lru_cache_clear`: destroy every node and chain cell, reset
head/tail/size and the current-size statistic. -/
def lru_cache_clear (c : Cache) : Cache :=
  let c1 := { c with entries := ([] : List Node), table := c.table.map (fun _ => []) }
  if c1.track_stats then
    { c1 with stats := { c1.stats with current_size := 0 } }
  else c1

/-- The `while (size > capacity) evict_lru(cache)` loop of
`lru_cache_resize`, unrolled to its exact iteration count: each pass of the
loop body evicts exactly one node while the list is longer than the
capacity, so the loop runs `size - new_capacity` times. -/
def evictTimes (c : Cache) : Nat → Cache
  | 0 => c
  | n + 1 => evictTimes (evict_lru c).2 n

/-- `lru_cache_resize`: reject capacities below `LRU_CACHE_MIN_CAPACITY`,
install the new capacity, then evict the tail until `size ≤ capacity`.  The
bucket table is untouched. -/
def lru_cache_resize (c : Cache) (new_capacity : Nat) : Int × Cache :=
  if new_capacity < 1 then (LRU_ERROR_INVALID_ARG, c)
  else
    let c := { c with capacity := new_capacity }
    (LRU_SUCCESS, evictTimes c (c.entries.length - new_capacity))

/-- `lru_cache_create`: capacities below `LRU_CACHE_MIN_CAPACITY` fall back
to `LRU_CACHE_DEFAULT_CAPACITY` (1024); the bucket table length is computed
once here.  Statistics tracking is on by default. -/
def lru_cache_create (capacity : Nat) : Cache :=
  let cap := if capacity < 1 then 1024 else capacity
  let hts := calculate_hash_table_size cap
  { capacity := cap
    entries := []
    hash_table_size := hts
    table := List.replicate hts []
    stats := stats0
    track_stats := true
    has_eviction_fn := false
    evictionLog := [] }

/-- `lru_cache_set_eviction_callback`: the callback itself is modelled by
the log, so registration is a flag. -/
def lru_cache_set_eviction_callback (c : Cache) (registered : Bool) : Cache :=
  { c with has_eviction_fn := registered }

/-- The public operations a client can issue after creation (the claims do
not involve the iterator or statistics reset). -/
inductive Op where
  | put (key value : Buf)
  | get (key : Buf)
  | peek (key : Buf)
  | contains (key : Buf)
  | del (key : Buf)
  | clear
  | resize (n : Nat)
deriving DecidableEq, Repr

/-- Apply one operation with every allocation succeeding. -/
def applyOp (c : Cache) : Op → Cache
  | .put k v => (lru_cache_put c k v okO).2.1
  | .get k => (lru_cache_get c k okO).2.2.1
  | .peek k => (lru_cache_peek c k okO).2.2.1
  | .contains k => (lru_cache_contains c k).2
  | .del k => (lru_cache_delete c k).2
  | .clear => lru_cache_clear c
  | .resize n => (lru_cache_resize c n).2

def runFrom (c : Cache) (ops : List Op) : Cache := ops.foldl applyOp c

/-- Run a call sequence against a fresh cache with an eviction callback
registered (as the driver program does). -/
def runOps (cap : Nat) (ops : List Op) : Cache :=
  runFrom (lru_cache_set_eviction_callback (lru_cache_create cap) true) ops

/-- A key of a valid call: non-null, non-empty, and (so that the 32-bit
truncation quirk of `default_compare` cannot fire) shorter than `2 ^ 32`
bytes. -/
def keyOK (k : Buf) : Bool := !k.isEmpty && decide (k.length < U32)

/-- Well-formed (valid-argument) calls. -/
def opWF : Op → Bool
  | .put k v => keyOK k && !v.isEmpty
  | .get k => keyOK k
  | .peek k => keyOK k
  | .contains k => keyOK k
  | .del k => keyOK k
  | .clear => true
  | .resize n => decide (1 ≤ n)

def opsWF (ops : List Op) : Bool := ops.all opWF

def isPutGet : Op → Bool
  | .put _ _ => true
  | .get _ => true
  | _ => false

/-- Independent reference model of strict LRU over keys (most recent first):
a touch (a `put` of an existing key or a `get` hit) moves the key to the
front; a fresh `put` inserts at the front, dropping the last key when the
model is at capacity.  By construction the last key of the model is always
the least recently touched live key. -/
def refStep (cap : Nat) (l : List Buf) : Op → List Buf
  | .put k _ =>
    if k ∈ l then k :: l.erase k
    else k :: (if cap ≤ l.length then l.dropLast else l)
  | .get k => if k ∈ l then k :: l.erase k else l
  | _ => l

def refLRU (cap : Nat) (ops : List Op) : List Buf :=
  ops.foldl (refStep cap) []

end LRU

namespace LRU

/-! Field bookkeeping lemmas: which cache fields each primitive touches. -/

@[simp] theorem bump_entries (c : Cache) (n : Nat) : (bumpCollisions c n).entries = c.entries := by
  unfold bumpCollisions; split <;> rfl

@[simp] theorem bump_table (c : Cache) (n : Nat) : (bumpCollisions c n).table = c.table := by
  unfold bumpCollisions; split <;> rfl

@[simp] theorem bump_capacity (c : Cache) (n : Nat) : (bumpCollisions c n).capacity = c.capacity := by
  unfold bumpCollisions; split <;> rfl

@[simp] theorem bump_hts (c : Cache) (n : Nat) : (bumpCollisions c n).hash_table_size = c.hash_table_size := by
  unfold bumpCollisions; split <;> rfl

@[simp] theorem bump_track (c : Cache) (n : Nat) : (bumpCollisions c n).track_stats = c.track_stats := by
  unfold bumpCollisions; split <;> rfl

@[simp] theorem bump_evfn (c : Cache) (n : Nat) : (bumpCollisions c n).has_eviction_fn = c.has_eviction_fn := by
  unfold bumpCollisions; split <;> rfl

@[simp] theorem bump_log (c : Cache) (n : Nat) : (bumpCollisions c n).evictionLog = c.evictionLog := by
  unfold bumpCollisions; split <;> rfl

@[simp] theorem bump_hits (c : Cache) (n : Nat) : (bumpCollisions c n).stats.hits = c.stats.hits := by
  unfold bumpCollisions; split <;> rfl

@[simp] theorem bump_misses (c : Cache) (n : Nat) : (bumpCollisions c n).stats.misses = c.stats.misses := by
  unfold bumpCollisions; split <;> rfl

@[simp] theorem bump_evictions (c : Cache) (n : Nat) : (bumpCollisions c n).stats.evictions = c.stats.evictions := by
  unfold bumpCollisions; split <;> rfl

@[simp] theorem bump_insertions (c : Cache) (n : Nat) : (bumpCollisions c n).stats.insertions = c.stats.insertions := by
  unfold bumpCollisions; split <;> rfl

@[simp] theorem bump_deletions (c : Cache) (n : Nat) : (bumpCollisions c n).stats.deletions = c.stats.deletions := by
  unfold bumpCollisions; split <;> rfl

@[simp] theorem bump_current (c : Cache) (n : Nat) : (bumpCollisions c n).stats.current_size = c.stats.current_size := by
  unfold bumpCollisions; split <;> rfl

@[simp] theorem bump_peak (c : Cache) (n : Nat) : (bumpCollisions c n).stats.peak_size = c.stats.peak_size := by
  unfold bumpCollisions; split <;> rfl

@[simp] theorem bump_zero (c : Cache) : bumpCollisions c 0 = c := by
  unfold bumpCollisions; split <;> rfl

theorem find_snd (c : Cache) (k : Buf) :
    (find_in_hash_table c k).2 = bumpCollisions c (chainFind (chainOf c (hash_key c k)) k).2 := rfl

/-! Bit-level analysis of the or-shift cascade in `calculate_hash_table_size`. -/

theorem orshift_testBit (t m i : Nat) :
    (t ||| t >>> m).testBit i = (t.testBit i || t.testBit (i + m)) := by
  rw [Nat.testBit_lor, Nat.testBit_shiftRight, Nat.add_comm m i]

theorem window_step (s t : Nat) (D : Nat)
    (ht : ∀ i, t.testBit i = true ↔ ∃ d, d < D ∧ s.testBit (i + d) = true) :
    ∀ i, (t ||| t >>> D).testBit i = true ↔ ∃ d, d < 2 * D ∧ s.testBit (i + d) = true := by
  intro i
  rw [orshift_testBit]
  simp only [Bool.or_eq_true, ht]
  constructor
  · rintro (⟨d, hd, hb⟩ | ⟨d, hd, hb⟩)
    · exact ⟨d, by omega, hb⟩
    · refine ⟨D + d, by omega, ?_⟩
      have he : i + (D + d) = i + D + d := by omega
      rwa [he]
  · rintro ⟨d, hd, hb⟩
    by_cases hdD : d < D
    · exact Or.inl ⟨d, hdD, hb⟩
    · refine Or.inr ⟨d - D, by omega, ?_⟩
      have he : i + D + (d - D) = i + d := by omega
      rwa [he]

theorem smear_testBit (s i : Nat) :
    (smear s).testBit i = true ↔ ∃ d, d < 32 ∧ s.testBit (i + d) = true := by
  have h0 : ∀ j, s.testBit j = true ↔ ∃ d, d < 1 ∧ s.testBit (j + d) = true := by
    intro j
    constructor
    · intro h; exact ⟨0, by omega, by simpa using h⟩
    · rintro ⟨d, hd, hb⟩
      have : d = 0 := by omega
      subst this; simpa using hb
  have h1 : ∀ j, (s ||| s >>> 1).testBit j = true ↔
      ∃ d, d < 2 ∧ s.testBit (j + d) = true := fun j => window_step s s 1 h0 j
  set t1 := s ||| s >>> 1 with ht1
  have h2 : ∀ j, (t1 ||| t1 >>> 2).testBit j = true ↔
      ∃ d, d < 4 ∧ s.testBit (j + d) = true := fun j => window_step s t1 2 h1 j
  set t2 := t1 ||| t1 >>> 2 with ht2
  have h3 : ∀ j, (t2 ||| t2 >>> 4).testBit j = true ↔
      ∃ d, d < 8 ∧ s.testBit (j + d) = true := fun j => window_step s t2 4 h2 j
  set t3 := t2 ||| t2 >>> 4 with ht3
  have h4 : ∀ j, (t3 ||| t3 >>> 8).testBit j = true ↔
      ∃ d, d < 16 ∧ s.testBit (j + d) = true := fun j => window_step s t3 8 h3 j
  set t4 := t3 ||| t3 >>> 8 with ht4
  have h5 : ∀ j, (t4 ||| t4 >>> 16).testBit j = true ↔
      ∃ d, d < 32 ∧ s.testBit (j + d) = true := fun j => window_step s t4 16 h4 j
  exact h5 i

theorem testBit_size_sub_one (s : Nat) (hs : 0 < s) : s.testBit (s.size - 1) = true := by
  have hpos : 0 < s.size := Nat.size_pos.mpr hs
  have h1 : 2 ^ (s.size - 1) ≤ s := Nat.lt_size.mp (by omega)
  have h2 : s < 2 ^ s.size := Nat.lt_size_self s
  have hp : 0 < 2 ^ (s.size - 1) := Nat.pos_pow_of_pos _ (by norm_num)
  rw [Nat.testBit_to_div_mod]
  have hdiv : s / 2 ^ (s.size - 1) = 1 := by
    have hlow : 1 ≤ s / 2 ^ (s.size - 1) := (Nat.le_div_iff_mul_le hp).mpr (by simpa using h1)
    have hhigh : s / 2 ^ (s.size - 1) < 2 := by
      rw [Nat.div_lt_iff_lt_mul hp]
      have he : 2 * 2 ^ (s.size - 1) = 2 ^ s.size := by
        have h' : s.size - 1 + 1 = s.size := by omega
        calc 2 * 2 ^ (s.size - 1) = 2 ^ (s.size - 1 + 1) := by
              rw [Nat.pow_succ]; ring
          _ = 2 ^ s.size := by rw [h']
      omega
    omega
  rw [hdiv]
  norm_num

theorem smear_testBit_iff {s : Nat} (h : s < 2 ^ 32) (i : Nat) :
    ((smear s).testBit i = true) ↔ i < s.size := by
  rw [smear_testBit]
  constructor
  · rintro ⟨d, hd, hb⟩
    by_contra hi
    have hlt : s < 2 ^ (i + d) :=
      lt_of_lt_of_le (Nat.lt_size_self s) (Nat.pow_le_pow_right (by norm_num) (by omega))
    rw [Nat.testBit_lt_two_pow hlt] at hb
    simp at hb
  · intro hi
    have hs0 : 0 < s := Nat.size_pos.mp (by omega)
    have hsle : s.size ≤ 32 := Nat.size_le.mpr h
    refine ⟨s.size - 1 - i, by omega, ?_⟩
    have he : i + (s.size - 1 - i) = s.size - 1 := by omega
    rw [he]
    exact testBit_size_sub_one s hs0

theorem smear_of_lt {s : Nat} (h : s < 2 ^ 32) : smear s = 2 ^ s.size - 1 := by
  apply Nat.eq_of_testBit_eq
  intro i
  rw [Nat.testBit_two_pow_sub_one]
  rcases Nat.lt_or_ge i s.size with hi | hi
  · rw [(smear_testBit_iff h i).mpr hi, decide_eq_true hi]
  · have hf : ¬ ((smear s).testBit i = true) := by
      rw [smear_testBit_iff h i]; omega
    rw [Bool.not_eq_true] at hf
    rw [hf, decide_eq_false (by omega)]

theorem calculate_hash_table_size_def (capacity : Nat) :
    calculate_hash_table_size capacity =
      (smear ((capacity * 4 / 3 + U64 - 1) % U64) + 1) % U64 := rfl

theorem calculate_hash_table_size_eq {capacity : Nat} (h1 : 1 ≤ capacity)
    (h2 : capacity * 4 / 3 ≤ 2 ^ 32) :
    calculate_hash_table_size capacity = 2 ^ (capacity * 4 / 3 - 1).size := by
  have hU : U64 = 2 ^ 64 := rfl
  have h64 : (2 : Nat) ^ 32 < 2 ^ 64 := by norm_num
  rw [calculate_hash_table_size_def]
  set m := capacity * 4 / 3 with hm
  have hm1 : 1 ≤ m := by
    have h4 : 4 ≤ capacity * 4 := by omega
    have h13 : 4 / 3 ≤ capacity * 4 / 3 := Nat.div_le_div_right h4
    omega
  have hmod : (m + U64 - 1) % U64 = m - 1 := by
    have he : m + U64 - 1 = (m - 1) + U64 := by omega
    rw [he, Nat.add_mod_right, Nat.mod_eq_of_lt (by omega)]
  rw [hmod, smear_of_lt (show m - 1 < 2 ^ 32 by omega)]
  have hsz : (m - 1).size ≤ 32 := Nat.size_le.mpr (by omega)
  have hple : (2 : Nat) ^ (m - 1).size ≤ 2 ^ 32 := Nat.pow_le_pow_right (by norm_num) hsz
  have hp : 0 < (2 : Nat) ^ (m - 1).size := Nat.pos_pow_of_pos _ (by norm_num)
  have he : 2 ^ (m - 1).size - 1 + 1 = 2 ^ (m - 1).size := by omega
  rw [he, Nat.mod_eq_of_lt (by omega)]

end LRU

namespace LRU

theorem two_pow_size_le {n : Nat} (hn : 0 < n) : 2 ^ n.size ≤ 2 * n := by
  have hpos : 0 < n.size := Nat.size_pos.mpr hn
  have h1 : 2 ^ (n.size - 1) ≤ n := Nat.lt_size.mp (by omega)
  have he : 2 ^ n.size = 2 * 2 ^ (n.size - 1) := by
    have h' : n.size - 1 + 1 = n.size := by omega
    calc 2 ^ n.size = 2 ^ (n.size - 1 + 1) := by rw [h']
      _ = 2 * 2 ^ (n.size - 1) := by rw [Nat.pow_succ]; ring
  omega

/-! No operation ever touches the `hash_table_size` field. -/

theorem move_to_front_hts (c : Cache) (k : Buf) :
    (move_to_front c k).hash_table_size = c.hash_table_size := by
  unfold move_to_front
  cases findNode c.entries k <;> rfl

theorem remove_from_hash_table_hts (c : Cache) (k : Buf) :
    (remove_from_hash_table c k).hash_table_size = c.hash_table_size := by
  unfold remove_from_hash_table
  simp

theorem evict_hts (c : Cache) : (evict_lru c).2.hash_table_size = c.hash_table_size := by
  unfold evict_lru
  rcases hg : c.entries.getLast? with _ | lru
  · rfl
  · simp only
    split <;> split <;> simp [remove_from_hash_table_hts]

theorem evictTimes_hts (n : Nat) : ∀ c : Cache,
    (evictTimes c n).hash_table_size = c.hash_table_size := by
  induction n with
  | zero => intro c; rfl
  | succ n ih =>
    intro c
    rw [show evictTimes c (n + 1) = evictTimes (evict_lru c).2 n from rfl, ih, evict_hts]


theorem put_hts (c : Cache) (k v : Buf) (o : AllocOracle) :
    (lru_cache_put c k v o).2.1.hash_table_size = c.hash_table_size := by
  unfold lru_cache_put
  split
  · rfl
  · rcases hf : (find_in_hash_table c k).1 with _ | node
    · simp only [hf, find_snd]
      rcases hc : (create_node k v o).1 with _ | node2 <;> simp only [hc]
      · simp
      · repeat' split
        all_goals simp [evict_hts, add_to_hash_table]
        all_goals repeat' split
        all_goals simp [evict_hts]
    · simp only [hf, find_snd]
      repeat' split
      all_goals simp [move_to_front_hts]

theorem get_hts (c : Cache) (k : Buf) (o : AllocOracle) :
    (lru_cache_get c k o).2.2.1.hash_table_size = c.hash_table_size := by
  unfold lru_cache_get
  split
  · rfl
  · rcases hf : (find_in_hash_table c k).1 with _ | node <;>
      simp only [hf, find_snd]
    all_goals repeat' split
    all_goals simp [move_to_front_hts]

theorem peek_hts (c : Cache) (k : Buf) (o : AllocOracle) :
    (lru_cache_peek c k o).2.2.1.hash_table_size = c.hash_table_size := by
  unfold lru_cache_peek
  split
  · rfl
  · rcases hf : (find_in_hash_table c k).1 with _ | node <;>
      simp only [hf, find_snd]
    all_goals repeat' split
    all_goals simp

theorem contains_hts (c : Cache) (k : Buf) :
    (lru_cache_contains c k).2.hash_table_size = c.hash_table_size := by
  unfold lru_cache_contains
  split <;> simp [find_snd]

theorem delete_hts (c : Cache) (k : Buf) :
    (lru_cache_delete c k).2.hash_table_size = c.hash_table_size := by
  unfold lru_cache_delete
  split
  · rfl
  · rcases hf : (find_in_hash_table c k).1 with _ | node <;>
      simp only [hf, find_snd]
    all_goals repeat' split
    all_goals simp [remove_from_hash_table_hts]

theorem clear_hts (c : Cache) : (lru_cache_clear c).hash_table_size = c.hash_table_size := by
  simp only [lru_cache_clear]
  split <;> rfl

theorem resize_hts (c : Cache) (n : Nat) :
    (lru_cache_resize c n).2.hash_table_size = c.hash_table_size := by
  unfold lru_cache_resize
  split
  · rfl
  · simp [evictTimes_hts]

theorem applyOp_hts (c : Cache) (op : Op) :
    (applyOp c op).hash_table_size = c.hash_table_size := by
  cases op <;>
    simp [applyOp, put_hts, get_hts, peek_hts, contains_hts, delete_hts, clear_hts, resize_hts]

theorem runFrom_hts (ops : List Op) : ∀ c : Cache,
    (runFrom c ops).hash_table_size = c.hash_table_size := by
  induction ops with
  | nil => intro c; rfl
  | cons op rest ih =>
    intro c
    rw [show runFrom c (op :: rest) = runFrom (applyOp c op) rest from rfl, ih, applyOp_hts]

end LRU

namespace LRU

theorem m_ge_one {capacity : Nat} (h : 1 ≤ capacity) : 1 ≤ capacity * 4 / 3 := by
  have h4 : 4 ≤ capacity * 4 := by omega
  have h13 : 4 / 3 ≤ capacity * 4 / 3 := Nat.div_le_div_right h4
  omega

theorem create_hts {capacity : Nat} (h : 1 ≤ capacity) :
    (lru_cache_create capacity).hash_table_size = calculate_hash_table_size capacity := by
  simp only [lru_cache_create]
  rw [if_neg (by omega)]

/-- C9 counterexample: at creation capacity 1 the bucket-table length is 1,
which is strictly below `capacity / 0.75 = 4/3` (the inequality is stated
multiplied out as `3 * length < 4 * capacity`), so it is not the next power
of two greater than or equal to `capacity / 0.75` — the C code truncates the
quotient before rounding up. -/
theorem C9_counterexample :
    (lru_cache_create 1).hash_table_size = 1 ∧
    3 * (lru_cache_create 1).hash_table_size < 4 * 1 := by
  constructor <;> decide

/-- C9 (amended): for every capacity (at least 1, and small enough that the
truncated quotient `⌊capacity * 4 / 3⌋` does not exceed `2 ^ 32`, past which
the or-shift cascade, missing a 32-bit shift, stops producing powers of two)
the bucket-table length computed at creation is the next power of two
greater than or equal to `⌊capacity / 0.75⌋`; and no subsequent operation —
in particular no `resize` — ever changes it. -/
theorem C9_thm (capacity : Nat) (ops : List Op)
    (h1 : 1 ≤ capacity) (h2 : capacity * 4 / 3 ≤ 2 ^ 32) :
    (∃ k, (lru_cache_create capacity).hash_table_size = 2 ^ k ∧
        capacity * 4 / 3 ≤ 2 ^ k ∧ 2 ^ k < 2 * (capacity * 4 / 3)) ∧
    (runOps capacity ops).hash_table_size = (lru_cache_create capacity).hash_table_size := by
  constructor
  · refine ⟨(capacity * 4 / 3 - 1).size, ?_, ?_, ?_⟩
    · rw [create_hts h1, calculate_hash_table_size_eq h1 h2]
    · have hm1 := m_ge_one h1
      have := Nat.lt_size_self (capacity * 4 / 3 - 1)
      omega
    · have hm1 := m_ge_one h1
      rcases Nat.eq_or_lt_of_le hm1 with he | hlt
      · rw [show capacity * 4 / 3 = 1 from he.symm]
        norm_num [Nat.size_zero]
      · have h0 : 0 < capacity * 4 / 3 - 1 := by omega
        have := two_pow_size_le h0
        omega
  · show (runFrom _ ops).hash_table_size = _
    rw [runFrom_hts]
    rfl

/-- C9 witness: the amended statement instantiated at capacity 5 and a small
operation sequence. -/
theorem C9_witness :
    (∃ k, (lru_cache_create 5).hash_table_size = 2 ^ k ∧
        5 * 4 / 3 ≤ 2 ^ k ∧ 2 ^ k < 2 * (5 * 4 / 3)) ∧
    (runOps 5 [Op.put [1] [2], Op.resize 2]).hash_table_size =
      (lru_cache_create 5).hash_table_size :=
  C9_thm 5 [Op.put [1] [2], Op.resize 2] (by norm_num) (by norm_num)

/-! Analysis of the default comparison strategy. -/

theorem memcmp_bytes_eq_zero : ∀ {k1 k2 : Buf}, k1.length = k2.length →
    (memcmp_bytes k1 k2 = 0 ↔ k1 = k2)
  | [], [], _ => by simp [memcmp_bytes]
  | [], _ :: _, h => by simp at h
  | _ :: _, [], h => by simp at h
  | a :: ra, b :: rb, h => by
    simp only [memcmp_bytes]
    by_cases hab : a = b
    · rw [if_pos hab, memcmp_bytes_eq_zero (by simpa using h)]
      simp [hab]
    · rw [if_neg hab]
      constructor
      · intro hz
        have : (a : Int) = (b : Int) := by omega
        exact absurd (by exact_mod_cast this) hab
      · intro he
        injection he with h1 h2
        exact absurd h1 hab

theorem size_sub_as_int_def (s1 s2 : Nat) :
    size_sub_as_int s1 s2 =
      if ((s1 + U64 - s2) % U64) % U32 < 2 ^ 31 then ((((s1 + U64 - s2) % U64) % U32 : Nat) : Int)
      else ((((s1 + U64 - s2) % U64) % U32 : Nat) : Int) - (U32 : Int) := rfl

theorem size_sub_as_int_ne_zero {s1 s2 : Nat} (h1 : s1 < 2 ^ 32) (h2 : s2 < 2 ^ 32)
    (hne : s1 ≠ s2) : size_sub_as_int s1 s2 ≠ 0 := by
  have e64 : U64 = 18446744073709551616 := by norm_num [U64]
  have e32 : U32 = 4294967296 := by norm_num [U32]
  have e31 : (2 : Nat) ^ 31 = 2147483648 := by norm_num
  have h1' : s1 < 4294967296 := by omega
  have h2' : s2 < 4294967296 := by omega
  rw [size_sub_as_int_def, e64, e32, e31]
  have ht : ((s1 + 18446744073709551616 - s2) % 18446744073709551616) % 4294967296 ≠ 0 := by
    omega
  have ht2 : ((s1 + 18446744073709551616 - s2) % 18446744073709551616) % 4294967296 <
      4294967296 := by omega
  set t := ((s1 + 18446744073709551616 - s2) % 18446744073709551616) % 4294967296 with hdeft
  split
  · exact_mod_cast ht
  · have : (t : Int) < 4294967296 := by exact_mod_cast ht2
    omega

/-- C10 counterexample: two buffers whose lengths differ by `2 ^ 32` (the
first is `2 ^ 32 + 1` zero bytes, the second a single zero byte) are of
unequal length, yet `default_compare` returns 0 — `(int)(size1 - size2)`
truncates the 64-bit length difference to its low 32 bits. -/
theorem C10_counterexample :
    (List.replicate (2 ^ 32 + 1) 0 : Buf).length ≠ ([0] : Buf).length ∧
    default_compare (List.replicate (2 ^ 32 + 1) 0) [0] = 0 := by
  have hlen : (List.replicate (2 ^ 32 + 1) 0 : Buf).length = 2 ^ 32 + 1 :=
    List.length_replicate _ _
  constructor
  · rw [hlen]; norm_num
  · unfold default_compare
    rw [if_pos (by rw [hlen]; norm_num)]
    rw [hlen, size_sub_as_int_def]
    have e1 : ((2 ^ 32 + 1 + U64 - ([0] : Buf).length) % U64) % U32 = 0 := by
      have e64 : U64 = 18446744073709551616 := by norm_num [U64]
      have e32 : U32 = 4294967296 := by norm_num [U32]
      simp only [List.length_singleton, e64, e32]
      norm_num
    rw [e1]
    norm_num

/-- C10 (amended): for key buffers shorter than `2 ^ 32` bytes the default
comparison strategy reports a match (result 0) exactly for byte-identical
buffers: unequal lengths compare unequal, and equal-length buffers compare
equal exactly when every byte matches.  (Buffers whose lengths differ by a
nonzero multiple of `2 ^ 32` are incorrectly reported equal, as the
counterexample shows; the bound excludes them.) -/
theorem C10_thm (k1 k2 : Buf) (h1 : k1.length < 2 ^ 32) (h2 : k2.length < 2 ^ 32) :
    default_compare k1 k2 = 0 ↔ k1 = k2 := by
  unfold default_compare
  by_cases hlen : k1.length = k2.length
  · rw [if_neg (by omega)]
    exact memcmp_bytes_eq_zero hlen
  · rw [if_pos hlen]
    constructor
    · intro hz
      exact absurd hz (size_sub_as_int_ne_zero h1 h2 hlen)
    · intro he
      exact absurd (congrArg List.length he) hlen

/-- C10 witness: the amended characterisation evaluated on concrete buffers:
`[1,2]` vs `[1,3]` (equal length, differing byte) do not compare equal. -/
theorem C10_witness : ¬ default_compare [1, 2] [1, 3] = 0 := by
  rw [C10_thm [1, 2] [1, 3] (by norm_num) (by norm_num)]
  simp

end LRU

namespace LRU

/-- The key buffers the driver program uses: `"keyN"` with its trailing NUL
(`strlen + 1` bytes). -/
def driverKey (i : Nat) : Buf := [107, 101, 121, 48 + i, 0]

/-- The value buffers the driver program uses: `"value_N"` with its trailing
NUL. -/
def driverValue (i : Nat) : Buf := [118, 97, 108, 117, 101, 95, 48 + i, 0]

/-- Insert `key1 .. key7` in order into a fresh capacity-5 cache with the
eviction callback registered, as the driver does. -/
def scenarioOps : List Op :=
  (List.range 7).map (fun i => Op.put (driverKey (i + 1)) (driverValue (i + 1)))

def scenarioCache : Cache := runOps 5 scenarioOps

/-- C4 counterexample: after inserting `key1..key7` into a capacity-5 cache
only `key1` and `key2` have been evicted, so `key3` is still live:
`get(key3)` returns success (with `"value_3"`), not NotFound as the claim
states. -/
theorem C4_counterexample :
    (lru_cache_get scenarioCache (driverKey 3) okO).1 = LRU_SUCCESS ∧
    (lru_cache_get scenarioCache (driverKey 3) okO).1 ≠ LRU_ERROR_NOT_FOUND := by
  decide

/-- C4 (amended): capacity 5, inserting `key1..key7` sequentially produces
exactly 2 evictions, of `key1` then `key2` (with their original values
passed to the callback); after that `get(key3)` succeeds returning
`"value_3"`, and a following `get(key6)` succeeds returning `"value_6"`. -/
theorem C4_thm :
    scenarioCache.stats.evictions = 2 ∧
    scenarioCache.evictionLog =
      [⟨driverKey 1, driverValue 1⟩, ⟨driverKey 2, driverValue 2⟩] ∧
    (lru_cache_get scenarioCache (driverKey 3) okO).1 = LRU_SUCCESS ∧
    (lru_cache_get scenarioCache (driverKey 3) okO).2.1 = some (driverValue 3) ∧
    (lru_cache_get (lru_cache_get scenarioCache (driverKey 3) okO).2.2.1
        (driverKey 6) okO).1 = LRU_SUCCESS ∧
    (lru_cache_get (lru_cache_get scenarioCache (driverKey 3) okO).2.2.1
        (driverKey 6) okO).2.1 = some (driverValue 6) := by
  decide

end LRU

namespace LRU

@[simp] theorem mtf_capacity (c : Cache) (k : Buf) :
    (move_to_front c k).capacity = c.capacity := by
  unfold move_to_front; cases findNode c.entries k <;> rfl

@[simp] theorem mtf_table (c : Cache) (k : Buf) :
    (move_to_front c k).table = c.table := by
  unfold move_to_front; cases findNode c.entries k <;> rfl

@[simp] theorem mtf_stats (c : Cache) (k : Buf) :
    (move_to_front c k).stats = c.stats := by
  unfold move_to_front; cases findNode c.entries k <;> rfl

@[simp] theorem mtf_track (c : Cache) (k : Buf) :
    (move_to_front c k).track_stats = c.track_stats := by
  unfold move_to_front; cases findNode c.entries k <;> rfl

@[simp] theorem mtf_evfn (c : Cache) (k : Buf) :
    (move_to_front c k).has_eviction_fn = c.has_eviction_fn := by
  unfold move_to_front; cases findNode c.entries k <;> rfl

@[simp] theorem mtf_log (c : Cache) (k : Buf) :
    (move_to_front c k).evictionLog = c.evictionLog := by
  unfold move_to_front; cases findNode c.entries k <;> rfl

theorem bump_bump (c : Cache) (m n : Nat) :
    bumpCollisions (bumpCollisions c m) n = bumpCollisions c (m + n) := by
  unfold bumpCollisions
  rcases ht : c.track_stats <;> simp [ht, Nat.add_assoc]

/-- State left by `lru_cache_peek`: only the best-effort collision counter
can move. -/
theorem peek_state (c : Cache) (k : Buf) (o : AllocOracle) :
    ∃ n, (lru_cache_peek c k o).2.2.1 = bumpCollisions c n := by
  unfold lru_cache_peek
  split
  · exact ⟨0, by simp⟩
  · rcases hf : (find_in_hash_table c k).1 with _ | node <;> simp only [hf, find_snd]
    · exact ⟨_, rfl⟩
    · split
      · exact ⟨_, rfl⟩
      · exact ⟨_, rfl⟩

/-- State left by `lru_cache_contains`: only the collision counter can
move. -/
theorem contains_state (c : Cache) (k : Buf) :
    ∃ n, (lru_cache_contains c k).2 = bumpCollisions c n := by
  unfold lru_cache_contains
  split
  · exact ⟨0, by simp⟩
  · exact ⟨_, rfl⟩

def isReadOnly : Op → Bool
  | .peek _ => true
  | .contains _ => true
  | _ => false

/-- C6 counterexample: on a capacity-1 cache holding key `[1]`, a single
`peek` (or `contains`) of the absent key `[2]` walks the one-bucket chain
past the live entry and increments the collision statistic, so the
observable state after the call differs from the state before it. -/
def collisionCache : Cache := runOps 1 [Op.put [1] [7]]

theorem C6_counterexample :
    (lru_cache_peek collisionCache [2] okO).2.2.1 ≠ collisionCache ∧
    (lru_cache_contains collisionCache [2]).2 ≠ collisionCache ∧
    collisionCache.stats.collisions = 0 ∧
    (lru_cache_peek collisionCache [2] okO).2.2.1.stats.collisions = 1 ∧
    (lru_cache_contains collisionCache [2]).2.stats.collisions = 1 := by
  decide

/-- C6 (amended): `peek` and `contains` never alter the entries, the recency
order, the eviction log, or any statistics counter other than the
best-effort collision counter: after any sequence of `peek`/`contains`
calls the state is the original one with only `stats.collisions` advanced
(by the number of hash-chain steps the lookups walked). -/
theorem C6_thm (c : Cache) (ops : List Op) (h : ∀ op ∈ ops, isReadOnly op = true) :
    ∃ n, runFrom c ops = bumpCollisions c n := by
  induction ops generalizing c with
  | nil => exact ⟨0, by simp [runFrom]⟩
  | cons op rest ih =>
    have hop : isReadOnly op = true := h op (by simp)
    have hrest : ∀ op' ∈ rest, isReadOnly op' = true := fun op' hm => h op' (by simp [hm])
    have hstep : ∃ n, applyOp c op = bumpCollisions c n := by
      cases op with
      | peek k => exact peek_state c k okO
      | contains k => exact contains_state c k
      | put k v => simp [isReadOnly] at hop
      | get k => simp [isReadOnly] at hop
      | del k => simp [isReadOnly] at hop
      | clear => simp [isReadOnly] at hop
      | resize n => simp [isReadOnly] at hop
    rcases hstep with ⟨n, hn⟩
    rcases ih (applyOp c op) hrest with ⟨m, hm⟩
    exact ⟨n + m, by rw [show runFrom c (op :: rest) = runFrom (applyOp c op) rest from rfl,
      hm, hn, bump_bump]⟩

/-- C6 witness: the amended statement at a concrete cache and a concrete
`peek`/`contains` sequence. -/
theorem C6_witness :
    ∃ n, runFrom collisionCache [Op.peek [2], Op.contains [1], Op.peek [1]] =
      bumpCollisions collisionCache n :=
  C6_thm collisionCache [Op.peek [2], Op.contains [1], Op.peek [1]] (by decide)

end LRU

namespace LRU

theorem evict_result (c : Cache) :
    (evict_lru c).1 = LRU_SUCCESS ∨ (evict_lru c).1 = LRU_ERROR_NOT_FOUND := by
  unfold evict_lru
  rcases hg : c.entries.getLast? with _ | lru
  · right; rfl
  · left
    simp only
    repeat' split
    all_goals rfl

theorem evict_success_ne_nil (c : Cache) (h : (evict_lru c).1 = LRU_SUCCESS) :
    c.entries ≠ [] := by
  intro hnil
  unfold evict_lru at h
  rw [hnil] at h
  norm_num [LRU_SUCCESS, LRU_ERROR_NOT_FOUND] at h

theorem add_fail_state (c : Cache) (key : Buf) (o : AllocOracle)
    (h : (add_to_hash_table c key o).1 ≠ LRU_SUCCESS) :
    (add_to_hash_table c key o).2.1 = c := by
  revert h
  unfold add_to_hash_table
  rcases hb : o.next.1 <;> simp [hb]

/-- C3 counterexample: a capacity-1 cache holding key `[1]`; a `put` of the
fresh key `[2]` whose first three allocations (node, key copy, value copy)
succeed but whose hash-entry allocation fails returns OutOfMemory — yet the
old entry has already been evicted: the cache comes back empty with the
eviction counter advanced, not in its pre-call state. -/
theorem C3_counterexample :
    (lru_cache_put collisionCache [2] [8] ⟨[true, true, true, false]⟩).1 = LRU_ERROR_NOMEM ∧
    (lru_cache_put collisionCache [2] [8] ⟨[true, true, true, false]⟩).2.1 ≠ collisionCache ∧
    collisionCache.entries ≠ [] ∧
    (lru_cache_put collisionCache [2] [8] ⟨[true, true, true, false]⟩).2.1.entries = [] ∧
    (lru_cache_put collisionCache [2] [8] ⟨[true, true, true, false]⟩).2.1.stats.evictions =
      collisionCache.stats.evictions + 1 := by
  decide

/-- C3 (amended): an OutOfMemory failure inserts no entry, but the cache is
not always byte-identical to its pre-call state.  A failing `put` leaves
either the original state with only the best-effort collision counter
advanced (failure in the value copy, the node allocation, or the key/value
deep copies), or — when the failure hits the hash-entry allocation after a
capacity eviction — exactly the state produced by that eviction (entry
gone, callback fired, eviction counter advanced).  A `get` failing in the
value deep copy leaves the hit entry already moved to the front, with
neither the hit nor the miss counter advanced. -/
theorem C3_thm (c : Cache) (k v : Buf) (o : AllocOracle) :
    ((lru_cache_put c k v o).1 = LRU_ERROR_NOMEM →
      ((∃ n, (lru_cache_put c k v o).2.1 = bumpCollisions c n) ∨
       (c.entries ≠ [] ∧
        ∃ n, (lru_cache_put c k v o).2.1 = (evict_lru (bumpCollisions c n)).2))) ∧
    ((lru_cache_get c k o).1 = LRU_ERROR_NOMEM →
      ∃ n node, (find_in_hash_table c k).1 = some node ∧
        (lru_cache_get c k o).2.2.1 = move_to_front (bumpCollisions c n) node.key ∧
        (lru_cache_get c k o).2.2.1.stats.hits = c.stats.hits ∧
        (lru_cache_get c k o).2.2.1.stats.misses = c.stats.misses) := by
  constructor
  · unfold lru_cache_put
    split
    · intro h; norm_num [LRU_ERROR_INVALID_ARG, LRU_ERROR_NOMEM] at h
    · rcases hf : (find_in_hash_table c k).1 with _ | node <;> simp only [hf, find_snd]
      · rcases hc : (create_node k v o).1 with _ | node2 <;> simp only [hc]
        · intro _; exact Or.inl ⟨_, rfl⟩
        · set n0 := (chainFind (chainOf c (hash_key c k)) k).2 with hn0
          set CB := bumpCollisions c n0 with hCB
          by_cases hA : CB.capacity ≤ CB.entries.length
          · rw [if_pos hA]
            by_cases hB : (evict_lru CB).1 ≠ LRU_SUCCESS
            · rw [if_pos hB]
              intro h
              rcases evict_result CB with hs | hnf
              · exact absurd hs hB
              · exfalso
                rw [hnf] at h
                norm_num [LRU_ERROR_NOT_FOUND, LRU_ERROR_NOMEM] at h
            · rw [if_neg hB]
              push_neg at hB
              by_cases hC :
                  (add_to_hash_table (evict_lru CB).2 node2.key (create_node k v o).2).1 ≠
                    LRU_SUCCESS
              · rw [if_pos hC]
                intro _
                refine Or.inr ⟨?_, n0, add_fail_state _ _ _ hC⟩
                have hne := evict_success_ne_nil CB hB
                rw [hCB] at hne
                simpa using hne
              · rw [if_neg hC]
                intro h
                exfalso
                revert h
                try dsimp only
                split <;> (intro h; norm_num [LRU_SUCCESS, LRU_ERROR_NOMEM] at h)
          · rw [if_neg hA]
            rw [if_neg (show ¬((LRU_SUCCESS, CB).1 ≠ LRU_SUCCESS) by simp)]
            by_cases hC : (add_to_hash_table CB node2.key (create_node k v o).2).1 ≠ LRU_SUCCESS
            · rw [if_pos hC]
              intro _
              exact Or.inl ⟨n0, add_fail_state _ _ _ hC⟩
            · rw [if_neg hC]
              intro h
              exfalso
              revert h
              try dsimp only
              split <;> (intro h; norm_num [LRU_SUCCESS, LRU_ERROR_NOMEM] at h)
      · split
        · intro _; exact Or.inl ⟨_, rfl⟩
        · intro h; norm_num [LRU_SUCCESS, LRU_ERROR_NOMEM] at h
  · unfold lru_cache_get
    split
    · intro h; norm_num [LRU_ERROR_INVALID_ARG, LRU_ERROR_NOMEM] at h
    · rcases hf : (find_in_hash_table c k).1 with _ | node <;> simp only [hf, find_snd]
      · intro h; norm_num [LRU_ERROR_NOT_FOUND, LRU_ERROR_NOMEM] at h
      · split
        · intro _
          exact ⟨_, node, rfl, rfl, by simp, by simp⟩
        · intro h; norm_num [LRU_SUCCESS, LRU_ERROR_NOMEM] at h

/-- C3 witness: the amended `put` characterisation applied to the concrete
failing insertion of the counterexample (the eviction-then-failure case). -/
theorem C3_witness :
    (∃ n, (lru_cache_put collisionCache [2] [8] ⟨[true, true, true, false]⟩).2.1 =
        bumpCollisions collisionCache n) ∨
    (collisionCache.entries ≠ [] ∧
     ∃ n, (lru_cache_put collisionCache [2] [8] ⟨[true, true, true, false]⟩).2.1 =
        (evict_lru (bumpCollisions collisionCache n)).2) :=
  (C3_thm collisionCache [2] [8] ⟨[true, true, true, false]⟩).1 (by decide)

end LRU

namespace LRU

@[simp] theorem remove_entries (c : Cache) (k : Buf) :
    (remove_from_hash_table c k).entries = c.entries := by
  unfold remove_from_hash_table; simp

@[simp] theorem remove_log (c : Cache) (k : Buf) :
    (remove_from_hash_table c k).evictionLog = c.evictionLog := by
  unfold remove_from_hash_table; simp

@[simp] theorem remove_capacity (c : Cache) (k : Buf) :
    (remove_from_hash_table c k).capacity = c.capacity := by
  unfold remove_from_hash_table; simp

@[simp] theorem remove_track (c : Cache) (k : Buf) :
    (remove_from_hash_table c k).track_stats = c.track_stats := by
  unfold remove_from_hash_table; simp

@[simp] theorem remove_evfn (c : Cache) (k : Buf) :
    (remove_from_hash_table c k).has_eviction_fn = c.has_eviction_fn := by
  unfold remove_from_hash_table; simp

@[simp] theorem remove_hits (c : Cache) (k : Buf) :
    (remove_from_hash_table c k).stats.hits = c.stats.hits := by
  unfold remove_from_hash_table; simp

@[simp] theorem remove_misses (c : Cache) (k : Buf) :
    (remove_from_hash_table c k).stats.misses = c.stats.misses := by
  unfold remove_from_hash_table; simp

@[simp] theorem remove_evictions (c : Cache) (k : Buf) :
    (remove_from_hash_table c k).stats.evictions = c.stats.evictions := by
  unfold remove_from_hash_table; simp

@[simp] theorem remove_insertions (c : Cache) (k : Buf) :
    (remove_from_hash_table c k).stats.insertions = c.stats.insertions := by
  unfold remove_from_hash_table; simp

@[simp] theorem remove_deletions (c : Cache) (k : Buf) :
    (remove_from_hash_table c k).stats.deletions = c.stats.deletions := by
  unfold remove_from_hash_table; simp

@[simp] theorem remove_current (c : Cache) (k : Buf) :
    (remove_from_hash_table c k).stats.current_size = c.stats.current_size := by
  unfold remove_from_hash_table; simp

@[simp] theorem remove_peak (c : Cache) (k : Buf) :
    (remove_from_hash_table c k).stats.peak_size = c.stats.peak_size := by
  unfold remove_from_hash_table; simp

theorem evict_succ_some (c : Cache) (lru : Node) (hg : c.entries.getLast? = some lru) :
    (evict_lru c).1 = LRU_SUCCESS := by
  unfold evict_lru
  rw [hg]
  simp only
  repeat' split
  all_goals rfl

theorem evict_entries_some (c : Cache) (lru : Node) (hg : c.entries.getLast? = some lru) :
    (evict_lru c).2.entries = c.entries.dropLast := by
  unfold evict_lru
  rw [hg]
  simp only
  repeat' split
  all_goals simp_all

theorem evict_log_some (c : Cache) (lru : Node) (hg : c.entries.getLast? = some lru) :
    (evict_lru c).2.evictionLog =
      (if c.has_eviction_fn then c.evictionLog ++ [lru] else c.evictionLog) := by
  unfold evict_lru
  rw [hg]
  simp only
  repeat' split
  all_goals simp_all

theorem evict_evfn (c : Cache) :
    (evict_lru c).2.has_eviction_fn = c.has_eviction_fn := by
  unfold evict_lru
  rcases hg : c.entries.getLast? with _ | lru
  · rfl
  · simp only
    repeat' split
    all_goals simp

theorem evict_capacity (c : Cache) :
    (evict_lru c).2.capacity = c.capacity := by
  unfold evict_lru
  rcases hg : c.entries.getLast? with _ | lru
  · rfl
  · simp only
    repeat' split
    all_goals simp

theorem evict_track (c : Cache) :
    (evict_lru c).2.track_stats = c.track_stats := by
  unfold evict_lru
  rcases hg : c.entries.getLast? with _ | lru
  · rfl
  · simp only
    repeat' split
    all_goals simp

theorem evict_hits (c : Cache) :
    (evict_lru c).2.stats.hits = c.stats.hits := by
  unfold evict_lru
  rcases hg : c.entries.getLast? with _ | lru
  · rfl
  · simp only
    repeat' split
    all_goals simp

theorem evict_misses (c : Cache) :
    (evict_lru c).2.stats.misses = c.stats.misses := by
  unfold evict_lru
  rcases hg : c.entries.getLast? with _ | lru
  · rfl
  · simp only
    repeat' split
    all_goals simp

theorem evict_insertions (c : Cache) :
    (evict_lru c).2.stats.insertions = c.stats.insertions := by
  unfold evict_lru
  rcases hg : c.entries.getLast? with _ | lru
  · rfl
  · simp only
    repeat' split
    all_goals simp

theorem evict_deletions (c : Cache) :
    (evict_lru c).2.stats.deletions = c.stats.deletions := by
  unfold evict_lru
  rcases hg : c.entries.getLast? with _ | lru
  · rfl
  · simp only
    repeat' split
    all_goals simp

theorem evict_current (c : Cache) :
    (evict_lru c).2.stats.current_size = c.stats.current_size := by
  unfold evict_lru
  rcases hg : c.entries.getLast? with _ | lru
  · rfl
  · simp only
    repeat' split
    all_goals simp

theorem evict_peak (c : Cache) :
    (evict_lru c).2.stats.peak_size = c.stats.peak_size := by
  unfold evict_lru
  rcases hg : c.entries.getLast? with _ | lru
  · rfl
  · simp only
    repeat' split
    all_goals simp

theorem evict_evictions_some (c : Cache) (lru : Node) (hg : c.entries.getLast? = some lru) :
    (evict_lru c).2.stats.evictions =
      (if c.track_stats then c.stats.evictions + 1 else c.stats.evictions) := by
  unfold evict_lru
  rw [hg]
  simp only
  repeat' split
  all_goals simp_all

theorem create_node_okO (k v : Buf) : create_node k v okO = (some ⟨k, v⟩, okO) := rfl

theorem add_okO (c : Cache) (key : Buf) :
    add_to_hash_table c key okO =
      (LRU_SUCCESS,
       { c with table := c.table.set (hash_key c key) (key :: chainOf c (hash_key c key)) },
       okO) := rfl

end LRU

namespace LRU

/-- `evictTimes` pops exactly the last `k` nodes, appending each of them (in
eviction order, least recent last) to the callback log. -/
theorem evictTimes_log (k : Nat) : ∀ c : Cache, c.has_eviction_fn = true →
    k ≤ c.entries.length →
    (evictTimes c k).evictionLog =
        c.evictionLog ++ (c.entries.drop (c.entries.length - k)).reverse ∧
    (evictTimes c k).entries = c.entries.take (c.entries.length - k) := by
  induction k with
  | zero =>
    intro c _ _
    exact ⟨by simp [evictTimes, List.drop_length], by simp [evictTimes, List.take_length]⟩
  | succ k ih =>
    intro c hev hk
    have hne : c.entries ≠ [] := by
      intro h; rw [h] at hk; simp at hk
    have hg : c.entries.getLast? = some (c.entries.getLast hne) :=
      List.getLast?_eq_getLast _ hne
    have hstep : evictTimes c (k + 1) = evictTimes (evict_lru c).2 k := rfl
    have hlen : (evict_lru c).2.entries.length = c.entries.length - 1 := by
      rw [evict_entries_some c _ hg, List.length_dropLast]
    have hev2 : (evict_lru c).2.has_eviction_fn = true := by rw [evict_evfn, hev]
    have hk2 : k ≤ (evict_lru c).2.entries.length := by omega
    obtain ⟨ihlog, ihent⟩ := ih (evict_lru c).2 hev2 hk2
    have hsplit : c.entries = c.entries.dropLast ++ [c.entries.getLast hne] :=
      (List.dropLast_append_getLast hne).symm
    have hDlen : c.entries.dropLast.length - k = c.entries.length - (k + 1) := by
      rw [List.length_dropLast]; omega
    have hdrop : ∀ i, i ≤ c.entries.dropLast.length →
        c.entries.drop i = c.entries.dropLast.drop i ++ [c.entries.getLast hne] := by
      intro i hi
      conv_lhs => rw [hsplit]
      rw [List.drop_append_of_le_length hi]
    have htake : ∀ i, i ≤ c.entries.dropLast.length →
        c.entries.take i = c.entries.dropLast.take i := by
      intro i hi
      conv_lhs => rw [hsplit]
      rw [List.take_append_of_le_length hi]
    have hi : c.entries.length - (k + 1) ≤ c.entries.dropLast.length := by
      rw [List.length_dropLast]; omega
    constructor
    · rw [hstep, ihlog, evict_log_some c _ hg, if_pos hev, evict_entries_some c _ hg,
        hDlen, hdrop _ hi, List.reverse_append]
      simp
    · rw [hstep, ihent, evict_entries_some c _ hg, hDlen, htake _ hi]

theorem get_log (c : Cache) (k : Buf) (o : AllocOracle) :
    (lru_cache_get c k o).2.2.1.evictionLog = c.evictionLog := by
  unfold lru_cache_get
  split
  · rfl
  · rcases hf : (find_in_hash_table c k).1 with _ | node <;> simp only [hf, find_snd]
    all_goals repeat' split
    all_goals simp

theorem peek_log (c : Cache) (k : Buf) (o : AllocOracle) :
    (lru_cache_peek c k o).2.2.1.evictionLog = c.evictionLog := by
  rcases peek_state c k o with ⟨n, hn⟩
  rw [hn]
  simp

theorem contains_log (c : Cache) (k : Buf) :
    (lru_cache_contains c k).2.evictionLog = c.evictionLog := by
  rcases contains_state c k with ⟨n, hn⟩
  rw [hn]
  simp

theorem delete_log (c : Cache) (k : Buf) :
    (lru_cache_delete c k).2.evictionLog = c.evictionLog := by
  unfold lru_cache_delete
  split
  · rfl
  · rcases hf : (find_in_hash_table c k).1 with _ | node <;> simp only [hf, find_snd]
    · simp
    · split <;> simp

theorem clear_log (c : Cache) : (lru_cache_clear c).evictionLog = c.evictionLog := by
  simp only [lru_cache_clear]
  split <;> rfl

theorem put_log_evict (c : Cache) (k v : Buf) (lru : Node)
    (hval : ¬(k.length = 0 ∨ v.length = 0))
    (hf : (find_in_hash_table c k).1 = none)
    (hcap : c.capacity ≤ c.entries.length)
    (hg : c.entries.getLast? = some lru)
    (hev : c.has_eviction_fn = true) :
    (lru_cache_put c k v okO).2.1.evictionLog = c.evictionLog ++ [lru] := by
  unfold lru_cache_put
  rw [if_neg hval]
  simp only [hf, find_snd, create_node_okO]
  set CB := bumpCollisions c (chainFind (chainOf c (hash_key c k)) k).2 with hCB
  have hcapCB : CB.capacity ≤ CB.entries.length := by rw [hCB]; simpa using hcap
  have hgCB : CB.entries.getLast? = some lru := by rw [hCB]; simpa using hg
  rw [if_pos hcapCB]
  rw [if_neg (show ¬((evict_lru CB).1 ≠ LRU_SUCCESS) by simp [evict_succ_some CB lru hgCB])]
  rw [add_okO]
  rw [if_neg (show ¬((LRU_SUCCESS : Int) ≠ LRU_SUCCESS) by simp)]
  split <;> simp [evict_log_some CB lru hgCB, hCB, hev]

theorem put_log_noevict (c : Cache) (k v : Buf)
    (hval : ¬(k.length = 0 ∨ v.length = 0))
    (hf : (find_in_hash_table c k).1 = none)
    (hcap : c.entries.length < c.capacity) :
    (lru_cache_put c k v okO).2.1.evictionLog = c.evictionLog := by
  unfold lru_cache_put
  rw [if_neg hval]
  simp only [hf, find_snd, create_node_okO]
  set CB := bumpCollisions c (chainFind (chainOf c (hash_key c k)) k).2 with hCB
  have hcapCB : ¬(CB.capacity ≤ CB.entries.length) := by rw [hCB]; simpa using hcap
  rw [if_neg hcapCB]
  rw [if_neg (show ¬(((LRU_SUCCESS, CB) : Int × Cache).1 ≠ LRU_SUCCESS) by simp)]
  rw [add_okO]
  rw [if_neg (show ¬((LRU_SUCCESS : Int) ≠ LRU_SUCCESS) by simp)]
  split <;> simp [hCB]

theorem put_log_existing (c : Cache) (k v : Buf) (node : Node)
    (hval : ¬(k.length = 0 ∨ v.length = 0))
    (hf : (find_in_hash_table c k).1 = some node) :
    (lru_cache_put c k v okO).2.1.evictionLog = c.evictionLog := by
  unfold lru_cache_put
  rw [if_neg hval]
  simp only [hf, find_snd]
  split
  · simp
  · simp

theorem resize_log (c : Cache) (n : Nat) (hn : 1 ≤ n) (hev : c.has_eviction_fn = true) :
    (lru_cache_resize c n).2.evictionLog = c.evictionLog ++ (c.entries.drop n).reverse := by
  unfold lru_cache_resize
  rw [if_neg (by omega)]
  have h := (evictTimes_log (c.entries.length - n) { c with capacity := n } hev (by simp)).1
  simp only at h
  rw [h]
  rcases le_or_lt n c.entries.length with hle | hlt
  · have he : c.entries.length - (c.entries.length - n) = n := by omega
    rw [he]
  · rw [List.drop_eq_nil_of_le (by omega), List.drop_eq_nil_of_le (by omega)]

/-- C8: the eviction callback is invoked exactly once per evicted entry,
with the entry's original key and value buffers (the logged node), before
the entry is destroyed; it fires only for capacity-driven evictions — a
`put` of a fresh key into a full cache logs exactly the tail entry, a
`resize` below the current size logs exactly the dropped tail segment in
eviction order — and it never fires for `delete`, `get`, `peek`,
`contains`, `clear`, a non-evicting `put`, or a value-updating `put`. -/
theorem C8_thm (c : Cache) (k v : Buf) (n : Nat) (lru : Node)
    (hev : c.has_eviction_fn = true) :
    ((lru_cache_delete c k).2.evictionLog = c.evictionLog) ∧
    ((lru_cache_get c k okO).2.2.1.evictionLog = c.evictionLog) ∧
    ((lru_cache_peek c k okO).2.2.1.evictionLog = c.evictionLog) ∧
    ((lru_cache_contains c k).2.evictionLog = c.evictionLog) ∧
    ((lru_cache_clear c).evictionLog = c.evictionLog) ∧
    (¬(k.length = 0 ∨ v.length = 0) → (find_in_hash_table c k).1 = none →
      c.capacity ≤ c.entries.length → c.entries.getLast? = some lru →
      (lru_cache_put c k v okO).2.1.evictionLog = c.evictionLog ++ [lru]) ∧
    (¬(k.length = 0 ∨ v.length = 0) → (find_in_hash_table c k).1 = none →
      c.entries.length < c.capacity →
      (lru_cache_put c k v okO).2.1.evictionLog = c.evictionLog) ∧
    (∀ node, ¬(k.length = 0 ∨ v.length = 0) → (find_in_hash_table c k).1 = some node →
      (lru_cache_put c k v okO).2.1.evictionLog = c.evictionLog) ∧
    (1 ≤ n →
      (lru_cache_resize c n).2.evictionLog =
        c.evictionLog ++ (c.entries.drop n).reverse) := by
  refine ⟨delete_log c k, get_log c k okO, peek_log c k okO, contains_log c k,
    clear_log c, ?_, ?_, ?_, ?_⟩
  · intro hval hf hcap hg
    exact put_log_evict c k v lru hval hf hcap hg hev
  · intro hval hf hcap
    exact put_log_noevict c k v hval hf hcap
  · intro node hval hf
    exact put_log_existing c k v node hval hf
  · intro hn
    exact resize_log c n hn hev

/-- C8 witness: on the concrete one-entry full cache, a fresh `put` logs
exactly the evicted original entry and a `delete` logs nothing. -/
theorem C8_witness :
    (lru_cache_put collisionCache [2] [9] okO).2.1.evictionLog =
      collisionCache.evictionLog ++ [⟨[1], [7]⟩] ∧
    (lru_cache_delete collisionCache [1]).2.evictionLog = collisionCache.evictionLog := by
  have h := C8_thm collisionCache [2] [9] 1 ⟨[1], [7]⟩ (by decide)
  exact ⟨h.2.2.2.2.2.1 (by decide) (by decide) (by decide) (by decide), h.1⟩

end LRU

namespace LRU

/-! Entry-count bookkeeping for the capacity invariant. -/

theorem updateValue_length (es : List Node) (k v : Buf) :
    (updateValue es k v).length = es.length := by
  induction es with
  | nil => rfl
  | cons n rest ih =>
    unfold updateValue
    split <;> simp [ih]

theorem eraseNode_length_of_find (es : List Node) (k : Buf) (n : Node)
    (h : es.find? (fun x => x.key == k) = some n) :
    (eraseNode es k).length + 1 = es.length := by
  induction es with
  | nil => simp at h
  | cons m rest ih =>
    unfold eraseNode
    by_cases hm : m.key == k
    · rw [if_pos hm]; rfl
    · rw [if_neg hm]
      rw [List.find?_cons_of_neg _ (by simpa using hm)] at h
      simp [ih h]

theorem eraseNode_length_le (es : List Node) (k : Buf) :
    (eraseNode es k).length ≤ es.length := by
  induction es with
  | nil => simp [eraseNode]
  | cons m rest ih =>
    unfold eraseNode
    split <;> simp <;> omega

theorem mtf_length (c : Cache) (k : Buf) :
    (move_to_front c k).entries.length = c.entries.length := by
  unfold move_to_front
  rcases hn : findNode c.entries k with _ | n
  · rfl
  · simp only
    have := eraseNode_length_of_find c.entries k n hn
    simp
    omega

@[simp] theorem add_entries (c : Cache) (key : Buf) (o : AllocOracle) :
    (add_to_hash_table c key o).2.1.entries = c.entries := by
  unfold add_to_hash_table
  rcases hb : o.next.1 <;> simp [hb]

@[simp] theorem add_capacity (c : Cache) (key : Buf) (o : AllocOracle) :
    (add_to_hash_table c key o).2.1.capacity = c.capacity := by
  unfold add_to_hash_table
  rcases hb : o.next.1 <;> simp [hb]

theorem evict_nil_state (c : Cache) (h : c.entries = []) : (evict_lru c).2 = c := by
  unfold evict_lru
  rw [h]
  rfl

theorem evictTimes_length (k : Nat) : ∀ c : Cache,
    (evictTimes c k).entries.length = c.entries.length - k := by
  induction k with
  | zero => intro c; simp [evictTimes]
  | succ k ih =>
    intro c
    by_cases hc : c.entries = []
    · rw [show evictTimes c (k + 1) = evictTimes (evict_lru c).2 k from rfl,
        evict_nil_state c hc, ih, hc]
      simp
    · have hg := List.getLast?_eq_getLast _ hc
      rw [show evictTimes c (k + 1) = evictTimes (evict_lru c).2 k from rfl, ih,
        evict_entries_some c _ hg, List.length_dropLast]
      omega

theorem evictTimes_capacity (k : Nat) : ∀ c : Cache,
    (evictTimes c k).capacity = c.capacity := by
  induction k with
  | zero => intro c; rfl
  | succ k ih =>
    intro c
    rw [show evictTimes c (k + 1) = evictTimes (evict_lru c).2 k from rfl, ih, evict_capacity]

theorem put_capacity (c : Cache) (k v : Buf) (o : AllocOracle) :
    (lru_cache_put c k v o).2.1.capacity = c.capacity := by
  unfold lru_cache_put
  split
  · rfl
  · rcases hf : (find_in_hash_table c k).1 with _ | node
    · simp only [hf, find_snd]
      rcases hc : (create_node k v o).1 with _ | node2 <;> simp only [hc]
      · simp
      · repeat' split
        all_goals simp [evict_capacity, add_to_hash_table]
        all_goals repeat' split
        all_goals simp [evict_capacity]
    · simp only [hf, find_snd]
      repeat' split
      all_goals simp

theorem put_length_le (c : Cache) (k v : Buf) (o : AllocOracle)
    (hcap : c.entries.length ≤ c.capacity) (h1 : 1 ≤ c.capacity) :
    (lru_cache_put c k v o).2.1.entries.length ≤ c.capacity := by
  unfold lru_cache_put
  split
  · simpa using hcap
  · rcases hf : (find_in_hash_table c k).1 with _ | node
    · simp only [hf, find_snd]
      rcases hc : (create_node k v o).1 with _ | node2 <;> simp only [hc]
      · simpa using hcap
      · by_cases hfull : (bumpCollisions c (chainFind (chainOf c (hash_key c k)) k).2).capacity ≤
            (bumpCollisions c (chainFind (chainOf c (hash_key c k)) k).2).entries.length
        · rw [if_pos hfull]
          have hne : c.entries ≠ [] := by
            intro hnil
            rw [bump_capacity, bump_entries, hnil] at hfull
            simp at hfull
            omega
          have hg := List.getLast?_eq_getLast _ hne
          have hgB : (bumpCollisions c (chainFind (chainOf c (hash_key c k)) k).2).entries.getLast? =
              some (c.entries.getLast hne) := by rw [bump_entries]; exact hg
          rw [if_neg (show ¬((evict_lru (bumpCollisions c (chainFind (chainOf c (hash_key c k)) k).2)).1 ≠ LRU_SUCCESS) by
            simp [evict_succ_some _ _ hgB])]
          have hlen : (evict_lru (bumpCollisions c (chainFind (chainOf c (hash_key c k)) k).2)).2.entries.length =
              c.entries.length - 1 := by
            rw [evict_entries_some _ _ hgB, List.length_dropLast, bump_entries]
          split
          · rename_i hah
            have := add_fail_state _ _ _ hah
            rw [this]
            omega
          · repeat' split
            all_goals simp [hlen]
            all_goals omega
        · rw [if_neg hfull]
          rw [if_neg (show ¬(((LRU_SUCCESS, bumpCollisions c (chainFind (chainOf c (hash_key c k)) k).2) : Int × Cache).1 ≠ LRU_SUCCESS) by simp)]
          rw [bump_capacity, bump_entries] at hfull
          split
          · rename_i hah
            have := add_fail_state _ _ _ hah
            rw [this]
            simpa using hcap
          · repeat' split
            all_goals simp
            all_goals omega
    · simp only [hf, find_snd]
      repeat' split
      all_goals simp [mtf_length, updateValue_length]
      all_goals omega

theorem get_capacity (c : Cache) (k : Buf) (o : AllocOracle) :
    (lru_cache_get c k o).2.2.1.capacity = c.capacity := by
  unfold lru_cache_get
  split
  · rfl
  · rcases hf : (find_in_hash_table c k).1 with _ | node <;> simp only [hf, find_snd]
    all_goals repeat' split
    all_goals simp

theorem get_length (c : Cache) (k : Buf) (o : AllocOracle) :
    (lru_cache_get c k o).2.2.1.entries.length = c.entries.length := by
  unfold lru_cache_get
  split
  · rfl
  · rcases hf : (find_in_hash_table c k).1 with _ | node <;> simp only [hf, find_snd]
    all_goals repeat' split
    all_goals simp [mtf_length]

theorem delete_capacity (c : Cache) (k : Buf) :
    (lru_cache_delete c k).2.capacity = c.capacity := by
  unfold lru_cache_delete
  split
  · rfl
  · rcases hf : (find_in_hash_table c k).1 with _ | node <;> simp only [hf, find_snd]
    all_goals repeat' split
    all_goals simp

theorem delete_length_le (c : Cache) (k : Buf) :
    (lru_cache_delete c k).2.entries.length ≤ c.entries.length := by
  unfold lru_cache_delete
  split
  · simp
  · rcases hf : (find_in_hash_table c k).1 with _ | node <;> simp only [hf, find_snd]
    · simp
    · repeat' split
      all_goals simp
      all_goals exact le_trans (eraseNode_length_le _ _) (by simp)

theorem clear_capacity (c : Cache) : (lru_cache_clear c).capacity = c.capacity := by
  simp only [lru_cache_clear]
  split <;> rfl

theorem clear_entries (c : Cache) : (lru_cache_clear c).entries = [] := by
  simp only [lru_cache_clear]
  split <;> rfl

theorem resize_capacity (c : Cache) (n : Nat) (hn : 1 ≤ n) :
    (lru_cache_resize c n).2.capacity = n := by
  unfold lru_cache_resize
  rw [if_neg (by omega)]
  simp only
  rw [evictTimes_capacity]

theorem resize_length_le (c : Cache) (n : Nat) (hn : 1 ≤ n)
    (hcap : c.entries.length ≤ c.capacity) :
    (lru_cache_resize c n).2.entries.length ≤ n := by
  unfold lru_cache_resize
  rw [if_neg (by omega)]
  simp only
  rw [evictTimes_length]
  simp only
  omega

/-- After every operation applied to a state satisfying the capacity
invariant, the invariant still holds. -/
theorem applyOp_inv (c : Cache) (op : Op) (h1 : 1 ≤ c.capacity)
    (h2 : c.entries.length ≤ c.capacity) :
    1 ≤ (applyOp c op).capacity ∧
    (applyOp c op).entries.length ≤ (applyOp c op).capacity := by
  cases op with
  | put k v =>
    refine ⟨?_, ?_⟩ <;> simp only [applyOp]
    · rw [put_capacity]; exact h1
    · rw [put_capacity]; exact put_length_le c k v okO h2 h1
  | get k =>
    refine ⟨?_, ?_⟩ <;> simp only [applyOp]
    · rw [get_capacity]; exact h1
    · rw [get_capacity, get_length]; exact h2
  | peek k =>
    rcases peek_state c k okO with ⟨n, hn⟩
    simp only [applyOp]
    rw [hn]
    exact ⟨by simpa using h1, by simpa using h2⟩
  | contains k =>
    rcases contains_state c k with ⟨n, hn⟩
    simp only [applyOp]
    rw [hn]
    exact ⟨by simpa using h1, by simpa using h2⟩
  | del k =>
    refine ⟨?_, ?_⟩ <;> simp only [applyOp]
    · rw [delete_capacity]; exact h1
    · rw [delete_capacity]
      exact le_trans (delete_length_le c k) h2
  | clear =>
    refine ⟨?_, ?_⟩ <;> simp only [applyOp]
    · rw [clear_capacity]; exact h1
    · rw [clear_capacity, clear_entries]; simpa using Nat.le_trans (by omega) h1
  | resize n =>
    by_cases hn : n < 1
    · have he : (lru_cache_resize c n).2 = c := by
        unfold lru_cache_resize
        rw [if_pos hn]
      simp only [applyOp]
      rw [he]
      exact ⟨h1, h2⟩
    · push_neg at hn
      refine ⟨?_, ?_⟩ <;> simp only [applyOp]
      · rw [resize_capacity c n hn]; omega
      · rw [resize_capacity c n hn]
        exact resize_length_le c n hn h2

theorem runFrom_inv (ops : List Op) : ∀ c : Cache, 1 ≤ c.capacity →
    c.entries.length ≤ c.capacity →
    1 ≤ (runFrom c ops).capacity ∧
    (runFrom c ops).entries.length ≤ (runFrom c ops).capacity := by
  induction ops with
  | nil => intro c h1 h2; exact ⟨h1, h2⟩
  | cons op rest ih =>
    intro c h1 h2
    obtain ⟨g1, g2⟩ := applyOp_inv c op h1 h2
    exact ih (applyOp c op) g1 g2

/-- C2: after any sequence of completed operations — `put`, `get`, `peek`,
`contains`, `delete`, `clear` and `resize`, including a `resize` to a
smaller capacity — the cache satisfies `size() ≤ capacity()` (the model's
`entries.length` is the C `size` field, kept in lockstep with the list). -/
theorem C2_thm (cap : Nat) (ops : List Op) :
    (runOps cap ops).entries.length ≤ (runOps cap ops).capacity := by
  have hstart1 : 1 ≤ (lru_cache_set_eviction_callback (lru_cache_create cap) true).capacity := by
    simp only [lru_cache_set_eviction_callback, lru_cache_create]
    split <;> omega
  have hstart2 :
      (lru_cache_set_eviction_callback (lru_cache_create cap) true).entries.length ≤
        (lru_cache_set_eviction_callback (lru_cache_create cap) true).capacity := by
    simp only [lru_cache_set_eviction_callback, lru_cache_create]
    split <;> simp
  exact (runFrom_inv ops _ hstart1 hstart2).2

end LRU

namespace LRU

@[simp] theorem add_stats (c : Cache) (key : Buf) (o : AllocOracle) :
    (add_to_hash_table c key o).2.1.stats = c.stats := by
  unfold add_to_hash_table
  rcases hb : o.next.1 <;> simp [hb]

@[simp] theorem add_track (c : Cache) (key : Buf) (o : AllocOracle) :
    (add_to_hash_table c key o).2.1.track_stats = c.track_stats := by
  unfold add_to_hash_table
  rcases hb : o.next.1 <;> simp [hb]

@[simp] theorem add_evfn (c : Cache) (key : Buf) (o : AllocOracle) :
    (add_to_hash_table c key o).2.1.has_eviction_fn = c.has_eviction_fn := by
  unfold add_to_hash_table
  rcases hb : o.next.1 <;> simp [hb]

theorem put_hits_stat (c : Cache) (k v : Buf) (o : AllocOracle) :
    (lru_cache_put c k v o).2.1.stats.hits = c.stats.hits := by
  unfold lru_cache_put
  split
  · rfl
  · rcases hf : (find_in_hash_table c k).1 with _ | node
    · simp only [hf, find_snd]
      rcases hc : (create_node k v o).1 with _ | node2 <;> simp only [hc]
      · simp
      · repeat' split
        all_goals simp [evict_hits]
    · simp only [hf, find_snd]
      repeat' split
      all_goals simp

theorem put_misses_stat (c : Cache) (k v : Buf) (o : AllocOracle) :
    (lru_cache_put c k v o).2.1.stats.misses = c.stats.misses := by
  unfold lru_cache_put
  split
  · rfl
  · rcases hf : (find_in_hash_table c k).1 with _ | node
    · simp only [hf, find_snd]
      rcases hc : (create_node k v o).1 with _ | node2 <;> simp only [hc]
      · simp
      · repeat' split
        all_goals simp [evict_misses]
    · simp only [hf, find_snd]
      repeat' split
      all_goals simp

theorem put_track (c : Cache) (k v : Buf) (o : AllocOracle) :
    (lru_cache_put c k v o).2.1.track_stats = c.track_stats := by
  unfold lru_cache_put
  split
  · rfl
  · rcases hf : (find_in_hash_table c k).1 with _ | node
    · simp only [hf, find_snd]
      rcases hc : (create_node k v o).1 with _ | node2 <;> simp only [hc]
      · simp
      · repeat' split
        all_goals simp [evict_track]
    · simp only [hf, find_snd]
      repeat' split
      all_goals simp

theorem put_peak_ge (c : Cache) (k v : Buf) (o : AllocOracle) :
    c.stats.peak_size ≤ (lru_cache_put c k v o).2.1.stats.peak_size := by
  unfold lru_cache_put
  split
  · simp
  · rcases hf : (find_in_hash_table c k).1 with _ | node
    · simp only [hf, find_snd]
      rcases hc : (create_node k v o).1 with _ | node2 <;> simp only [hc]
      · simp
      · repeat' split
        all_goals simp [evict_peak]
        all_goals exact le_max_left _ _
    · simp only [hf, find_snd]
      repeat' split
      all_goals simp

theorem get_track (c : Cache) (k : Buf) (o : AllocOracle) :
    (lru_cache_get c k o).2.2.1.track_stats = c.track_stats := by
  unfold lru_cache_get
  split
  · rfl
  · rcases hf : (find_in_hash_table c k).1 with _ | node <;> simp only [hf, find_snd]
    all_goals repeat' split
    all_goals simp

theorem get_current (c : Cache) (k : Buf) (o : AllocOracle) :
    (lru_cache_get c k o).2.2.1.stats.current_size = c.stats.current_size := by
  unfold lru_cache_get
  split
  · rfl
  · rcases hf : (find_in_hash_table c k).1 with _ | node <;> simp only [hf, find_snd]
    all_goals repeat' split
    all_goals simp

theorem get_peak (c : Cache) (k : Buf) (o : AllocOracle) :
    (lru_cache_get c k o).2.2.1.stats.peak_size = c.stats.peak_size := by
  unfold lru_cache_get
  split
  · rfl
  · rcases hf : (find_in_hash_table c k).1 with _ | node <;> simp only [hf, find_snd]
    all_goals repeat' split
    all_goals simp

theorem get_hitmiss (c : Cache) (k : Buf) (hk : ¬ k.length = 0) (ht : c.track_stats = true) :
    (lru_cache_get c k okO).2.2.1.stats.hits + (lru_cache_get c k okO).2.2.1.stats.misses =
      c.stats.hits + c.stats.misses + 1 := by
  unfold lru_cache_get
  rw [if_neg hk]
  rcases hf : (find_in_hash_table c k).1 with _ | node <;> simp only [hf, find_snd]
  · rw [if_pos (by simp [ht])]
    simp
    omega
  · rw [if_neg (by simp [okO, AllocOracle.next])]
    rw [if_pos (by simp [ht])]
    simp
    omega

theorem delete_track (c : Cache) (k : Buf) :
    (lru_cache_delete c k).2.track_stats = c.track_stats := by
  unfold lru_cache_delete
  split
  · rfl
  · rcases hf : (find_in_hash_table c k).1 with _ | node <;> simp only [hf, find_snd]
    all_goals repeat' split
    all_goals simp

theorem delete_hits (c : Cache) (k : Buf) :
    (lru_cache_delete c k).2.stats.hits = c.stats.hits := by
  unfold lru_cache_delete
  split
  · rfl
  · rcases hf : (find_in_hash_table c k).1 with _ | node <;> simp only [hf, find_snd]
    all_goals repeat' split
    all_goals simp

theorem delete_misses (c : Cache) (k : Buf) :
    (lru_cache_delete c k).2.stats.misses = c.stats.misses := by
  unfold lru_cache_delete
  split
  · rfl
  · rcases hf : (find_in_hash_table c k).1 with _ | node <;> simp only [hf, find_snd]
    all_goals repeat' split
    all_goals simp

theorem delete_peak (c : Cache) (k : Buf) :
    (lru_cache_delete c k).2.stats.peak_size = c.stats.peak_size := by
  unfold lru_cache_delete
  split
  · rfl
  · rcases hf : (find_in_hash_table c k).1 with _ | node <;> simp only [hf, find_snd]
    all_goals repeat' split
    all_goals simp

theorem clear_track (c : Cache) : (lru_cache_clear c).track_stats = c.track_stats := by
  simp only [lru_cache_clear]
  split <;> rfl

theorem clear_hits (c : Cache) : (lru_cache_clear c).stats.hits = c.stats.hits := by
  simp only [lru_cache_clear]
  split <;> rfl

theorem clear_misses (c : Cache) : (lru_cache_clear c).stats.misses = c.stats.misses := by
  simp only [lru_cache_clear]
  split <;> rfl

theorem clear_peak (c : Cache) : (lru_cache_clear c).stats.peak_size = c.stats.peak_size := by
  simp only [lru_cache_clear]
  split <;> rfl

theorem clear_current (c : Cache) (ht : c.track_stats = true) :
    (lru_cache_clear c).stats.current_size = 0 := by
  simp only [lru_cache_clear]
  rw [if_pos (by simpa using ht)]

theorem evictTimes_track (k : Nat) : ∀ c : Cache,
    (evictTimes c k).track_stats = c.track_stats := by
  induction k with
  | zero => intro c; rfl
  | succ k ih =>
    intro c
    rw [show evictTimes c (k + 1) = evictTimes (evict_lru c).2 k from rfl, ih, evict_track]

theorem evictTimes_hits (k : Nat) : ∀ c : Cache,
    (evictTimes c k).stats.hits = c.stats.hits := by
  induction k with
  | zero => intro c; rfl
  | succ k ih =>
    intro c
    rw [show evictTimes c (k + 1) = evictTimes (evict_lru c).2 k from rfl, ih, evict_hits]

theorem evictTimes_misses (k : Nat) : ∀ c : Cache,
    (evictTimes c k).stats.misses = c.stats.misses := by
  induction k with
  | zero => intro c; rfl
  | succ k ih =>
    intro c
    rw [show evictTimes c (k + 1) = evictTimes (evict_lru c).2 k from rfl, ih, evict_misses]

theorem evictTimes_peak (k : Nat) : ∀ c : Cache,
    (evictTimes c k).stats.peak_size = c.stats.peak_size := by
  induction k with
  | zero => intro c; rfl
  | succ k ih =>
    intro c
    rw [show evictTimes c (k + 1) = evictTimes (evict_lru c).2 k from rfl, ih, evict_peak]

theorem resize_track (c : Cache) (n : Nat) :
    (lru_cache_resize c n).2.track_stats = c.track_stats := by
  unfold lru_cache_resize
  split
  · rfl
  · simp only
    rw [evictTimes_track]

theorem resize_hits (c : Cache) (n : Nat) :
    (lru_cache_resize c n).2.stats.hits = c.stats.hits := by
  unfold lru_cache_resize
  split
  · rfl
  · simp only
    rw [evictTimes_hits]

theorem resize_misses (c : Cache) (n : Nat) :
    (lru_cache_resize c n).2.stats.misses = c.stats.misses := by
  unfold lru_cache_resize
  split
  · rfl
  · simp only
    rw [evictTimes_misses]

theorem resize_peak (c : Cache) (n : Nat) :
    (lru_cache_resize c n).2.stats.peak_size = c.stats.peak_size := by
  unfold lru_cache_resize
  split
  · rfl
  · simp only
    rw [evictTimes_peak]

end LRU

namespace LRU

theorem put_current (c : Cache) (k v : Buf) (ht : c.track_stats = true)
    (hcur : c.stats.current_size = c.entries.length) :
    (lru_cache_put c k v okO).2.1.stats.current_size =
      (lru_cache_put c k v okO).2.1.entries.length := by
  unfold lru_cache_put
  split
  · simpa using hcur
  · rcases hf : (find_in_hash_table c k).1 with _ | node
    · simp only [hf, find_snd, create_node_okO]
      set CB := bumpCollisions c (chainFind (chainOf c (hash_key c k)) k).2 with hCB
      by_cases hfull : CB.capacity ≤ CB.entries.length
      · rw [if_pos hfull]
        by_cases hne : c.entries = []
        · have hCBnil : CB.entries = [] := by rw [hCB]; simpa using hne
          have hev1 : (evict_lru CB).1 = LRU_ERROR_NOT_FOUND := by
            unfold evict_lru
            rw [hCBnil]
            rfl
          rw [if_pos (by rw [hev1]; norm_num [LRU_ERROR_NOT_FOUND, LRU_SUCCESS])]
          rw [evict_nil_state CB hCBnil]
          rw [hCB]
          simpa using hcur
        · have hg := List.getLast?_eq_getLast _ hne
          have hgB : CB.entries.getLast? = some (c.entries.getLast hne) := by
            rw [hCB]; simpa using hg
          rw [if_neg (by simp [evict_succ_some CB _ hgB])]
          rw [add_okO]
          rw [if_neg (by simp)]
          split
          · rfl
          · rename_i htr
            exfalso
            exact htr (by simp [evict_track, hCB, ht])
      · rw [if_neg hfull]
        rw [if_neg (show ¬(((LRU_SUCCESS, CB) : Int × Cache).1 ≠ LRU_SUCCESS) by simp)]
        rw [add_okO]
        rw [if_neg (by simp)]
        split
        · rfl
        · rename_i htr
          exfalso
          exact htr (by simp [hCB, ht])
    · simp only [hf, find_snd]
      rw [if_neg (by simp [okO, AllocOracle.next])]
      simp [mtf_length, updateValue_length, hcur]

theorem delete_current (c : Cache) (k : Buf) (ht : c.track_stats = true)
    (hcur : c.stats.current_size = c.entries.length) :
    (lru_cache_delete c k).2.stats.current_size =
      (lru_cache_delete c k).2.entries.length := by
  unfold lru_cache_delete
  split
  · simpa using hcur
  · rcases hf : (find_in_hash_table c k).1 with _ | node <;> simp only [hf, find_snd]
    · simpa using hcur
    · split
      · rfl
      · rename_i htr
        exfalso
        exact htr (by simp [ht])

def isGet : Op → Bool
  | .get _ => true
  | _ => false

def countGets (ops : List Op) : Nat := (ops.filter isGet).length

def isResize : Op → Bool
  | .resize _ => true
  | _ => false

theorem applyOp_track (c : Cache) (op : Op) :
    (applyOp c op).track_stats = c.track_stats := by
  cases op with
  | put k v => simp only [applyOp]; rw [put_track]
  | get k => simp only [applyOp]; rw [get_track]
  | peek k =>
    rcases peek_state c k okO with ⟨n, hn⟩
    simp only [applyOp]
    rw [hn]
    simp
  | contains k =>
    rcases contains_state c k with ⟨n, hn⟩
    simp only [applyOp]
    rw [hn]
    simp
  | del k => simp only [applyOp]; rw [delete_track]
  | clear => simp only [applyOp]; rw [clear_track]
  | resize n => simp only [applyOp]; rw [resize_track]

theorem isEmpty_false_length {k : Buf} (h : k.isEmpty = false) : ¬ k.length = 0 := by
  cases k with
  | nil => simp at h
  | cons a r => simp

theorem applyOp_hitmiss (c : Cache) (op : Op) (ht : c.track_stats = true)
    (hop : opWF op = true) :
    (applyOp c op).stats.hits + (applyOp c op).stats.misses =
      c.stats.hits + c.stats.misses + (if isGet op then 1 else 0) := by
  cases op with
  | put k v =>
    simp only [applyOp, isGet, if_neg]
    rw [put_hits_stat, put_misses_stat]
    simp
  | get k =>
    have hk : ¬ k.length = 0 := by
      have : keyOK k = true := by simpa [opWF] using hop
      have hne : k.isEmpty = false := by
        rcases hk2 : k.isEmpty with _ | _
        · rfl
        · simp [keyOK, hk2] at this
      exact isEmpty_false_length hne
    simp only [applyOp, isGet, if_pos]
    rw [get_hitmiss c k hk ht]
  | peek k =>
    rcases peek_state c k okO with ⟨n, hn⟩
    simp only [applyOp, isGet]
    rw [hn]
    simp
  | contains k =>
    rcases contains_state c k with ⟨n, hn⟩
    simp only [applyOp, isGet]
    rw [hn]
    simp
  | del k =>
    simp only [applyOp, isGet]
    rw [delete_hits, delete_misses]
    simp
  | clear =>
    simp only [applyOp, isGet]
    rw [clear_hits, clear_misses]
    simp
  | resize n =>
    simp only [applyOp, isGet]
    rw [resize_hits, resize_misses]
    simp

theorem countGets_cons (op : Op) (rest : List Op) :
    countGets (op :: rest) = (if isGet op then 1 else 0) + countGets rest := by
  unfold countGets
  rcases hg : isGet op <;> simp [List.filter_cons, hg]
  omega

theorem runFrom_hitmiss (ops : List Op) : ∀ c : Cache, c.track_stats = true →
    opsWF ops = true →
    (runFrom c ops).stats.hits + (runFrom c ops).stats.misses =
      c.stats.hits + c.stats.misses + countGets ops := by
  induction ops with
  | nil => intro c _ _; simp [runFrom, countGets]
  | cons op rest ih =>
    intro c ht hwf
    have hop : opWF op = true := by
      simp [opsWF] at hwf
      exact hwf.1
    have hrest : opsWF rest = true := by
      simp [opsWF] at hwf ⊢
      exact hwf.2
    have ht2 : (applyOp c op).track_stats = true := by rw [applyOp_track, ht]
    rw [show runFrom c (op :: rest) = runFrom (applyOp c op) rest from rfl,
      ih (applyOp c op) ht2 hrest, applyOp_hitmiss c op ht hop, countGets_cons]
    omega

theorem applyOp_peak (c : Cache) (op : Op) :
    c.stats.peak_size ≤ (applyOp c op).stats.peak_size := by
  cases op with
  | put k v => simp only [applyOp]; exact put_peak_ge c k v okO
  | get k => simp only [applyOp]; rw [get_peak]
  | peek k =>
    rcases peek_state c k okO with ⟨n, hn⟩
    simp only [applyOp]
    rw [hn]
    simp
  | contains k =>
    rcases contains_state c k with ⟨n, hn⟩
    simp only [applyOp]
    rw [hn]
    simp
  | del k => simp only [applyOp]; rw [delete_peak]
  | clear => simp only [applyOp]; rw [clear_peak]
  | resize n => simp only [applyOp]; rw [resize_peak]

theorem runFrom_peak (ops : List Op) : ∀ c : Cache,
    c.stats.peak_size ≤ (runFrom c ops).stats.peak_size := by
  induction ops with
  | nil => intro c; exact le_refl _
  | cons op rest ih =>
    intro c
    exact le_trans (applyOp_peak c op)
      (by rw [show runFrom c (op :: rest) = runFrom (applyOp c op) rest from rfl]
          exact ih (applyOp c op))

theorem applyOp_current (c : Cache) (op : Op) (ht : c.track_stats = true)
    (hcur : c.stats.current_size = c.entries.length) (hnr : isResize op = false) :
    (applyOp c op).stats.current_size = (applyOp c op).entries.length := by
  cases op with
  | put k v => simp only [applyOp]; exact put_current c k v ht hcur
  | get k => simp only [applyOp]; rw [get_current, get_length, hcur]
  | peek k =>
    rcases peek_state c k okO with ⟨n, hn⟩
    simp only [applyOp]
    rw [hn]
    simpa using hcur
  | contains k =>
    rcases contains_state c k with ⟨n, hn⟩
    simp only [applyOp]
    rw [hn]
    simpa using hcur
  | del k => simp only [applyOp]; exact delete_current c k ht hcur
  | clear =>
    simp only [applyOp]
    rw [clear_current c ht, clear_entries]
    rfl
  | resize n => simp [isResize] at hnr

theorem runFrom_current (ops : List Op) : ∀ c : Cache, c.track_stats = true →
    c.stats.current_size = c.entries.length →
    (∀ op ∈ ops, isResize op = false) →
    (runFrom c ops).stats.current_size = (runFrom c ops).entries.length := by
  induction ops with
  | nil => intro c _ h _; exact h
  | cons op rest ih =>
    intro c ht hcur hnr
    have ht2 : (applyOp c op).track_stats = true := by rw [applyOp_track, ht]
    have hcur2 := applyOp_current c op ht hcur (hnr op (by simp))
    rw [show runFrom c (op :: rest) = runFrom (applyOp c op) rest from rfl]
    exact ih (applyOp c op) ht2 hcur2 (fun op' hm => hnr op' (by simp [hm]))

theorem runFrom_append (c : Cache) (pre suf : List Op) :
    runFrom c (pre ++ suf) = runFrom (runFrom c pre) suf := by
  simp [runFrom, List.foldl_append]

/-- C7 counterexample: capacity 2, `put [1]`, `put [2]`, then `resize 1`:
the resize evicts one entry through `evict_lru`, which never refreshes
`stats.current_size`, so at this observation point the statistic still
reads 2 while the live entry count is 1. -/
theorem C7_counterexample :
    (runOps 2 [Op.put [1] [2], Op.put [2] [2], Op.resize 1]).stats.current_size = 2 ∧
    (runOps 2 [Op.put [1] [2], Op.put [2] [2], Op.resize 1]).entries.length = 1 := by
  decide

/-- C7 (amended): on a statistics-enabled cache, for every sequence of
valid calls (non-empty keys and values, no statistics reset; allocations
succeeding): `hits + misses` equals the number of `get` calls; `peak_size`
never decreases along the run; and `current_size` equals the live entry
count at every observation point reached without a `resize` — a
capacity-reducing `resize` leaves `current_size` stale (the counterexample)
until a later `put`, `delete` or `clear` refreshes it. -/
theorem C7_thm (cap : Nat) (ops : List Op) (hwf : opsWF ops = true) :
    ((runOps cap ops).stats.hits + (runOps cap ops).stats.misses = countGets ops) ∧
    (∀ pre suf, ops = pre ++ suf →
      (runOps cap pre).stats.peak_size ≤ (runOps cap ops).stats.peak_size) ∧
    ((∀ op ∈ ops, isResize op = false) →
      (runOps cap ops).stats.current_size = (runOps cap ops).entries.length) := by
  have htrack : (lru_cache_set_eviction_callback (lru_cache_create cap) true).track_stats =
      true := rfl
  have hstats : (lru_cache_set_eviction_callback (lru_cache_create cap) true).stats =
      stats0 := rfl
  refine ⟨?_, ?_, ?_⟩
  · have h := runFrom_hitmiss ops _ htrack hwf
    rw [show runOps cap ops = runFrom (lru_cache_set_eviction_callback (lru_cache_create cap) true) ops from rfl, h, hstats]
    simp [stats0]
  · intro pre suf hsplit
    rw [show runOps cap ops = runFrom (lru_cache_set_eviction_callback (lru_cache_create cap) true) ops from rfl, hsplit, runFrom_append]
    exact runFrom_peak suf _
  · intro hnr
    exact runFrom_current ops _ htrack (by rw [hstats]; rfl) hnr

/-- C7 witness: the amended statement at capacity 2 with one insertion, one
hit and one miss. -/
theorem C7_witness :
    ((runOps 2 [Op.put [1] [2], Op.get [1], Op.get [3]]).stats.hits +
        (runOps 2 [Op.put [1] [2], Op.get [1], Op.get [3]]).stats.misses =
      countGets [Op.put [1] [2], Op.get [1], Op.get [3]]) ∧
    (∀ pre suf, [Op.put [1] [2], Op.get [1], Op.get [3]] = pre ++ suf →
      (runOps 2 pre).stats.peak_size ≤
        (runOps 2 [Op.put [1] [2], Op.get [1], Op.get [3]]).stats.peak_size) ∧
    ((∀ op ∈ [Op.put [1] [2], Op.get [1], Op.get [3]], isResize op = false) →
      (runOps 2 [Op.put [1] [2], Op.get [1], Op.get [3]]).stats.current_size =
        (runOps 2 [Op.put [1] [2], Op.get [1], Op.get [3]]).entries.length) :=
  C7_thm 2 [Op.put [1] [2], Op.get [1], Op.get [3]] (by decide)

end LRU

namespace LRU

/-! Coherence of the hash index with the recency list.  For keys shorter
than `2 ^ 32` bytes the default comparison agrees with byte equality (see
the C10 analysis), which is what makes the per-bucket chains a faithful
index of the live entries. -/

theorem default_compare_zero_iff {k1 k2 : Buf} (h1 : k1.length < 2 ^ 32)
    (h2 : k2.length < 2 ^ 32) : default_compare k1 k2 = 0 ↔ k1 = k2 := by
  unfold default_compare
  by_cases hlen : k1.length = k2.length
  · rw [if_neg (by omega)]
    exact memcmp_bytes_eq_zero hlen
  · rw [if_pos hlen]
    constructor
    · intro hz
      exact absurd hz (size_sub_as_int_ne_zero h1 h2 hlen)
    · intro he
      exact absurd (congrArg List.length he) hlen

theorem compareEq_iff {k1 k2 : Buf} (h1 : k1.length < U32) (h2 : k2.length < U32) :
    compareEq k1 k2 = true ↔ k1 = k2 := by
  unfold compareEq
  rw [beq_iff_eq]
  exact default_compare_zero_iff h1 h2

/-- A node's key never changes, so erasing the node with a given key from
the list erases exactly that key from the key sequence. -/
theorem eraseNode_map_key (es : List Node) (k : Buf) :
    (eraseNode es k).map Node.key = (es.map Node.key).erase k := by
  induction es with
  | nil => rfl
  | cons m rest ih =>
    unfold eraseNode
    by_cases hm : m.key == k
    · rw [if_pos hm]
      simp only [List.map_cons, List.erase_cons]
      rw [if_pos hm]
    · rw [if_neg hm]
      simp only [List.map_cons, List.erase_cons]
      rw [if_neg hm, ih]

theorem updateValue_map_key (es : List Node) (k v : Buf) :
    (updateValue es k v).map Node.key = es.map Node.key := by
  induction es with
  | nil => rfl
  | cons m rest ih =>
    unfold updateValue
    split <;> simp [ih]

theorem findNode_erase_perm (es : List Node) (k : Buf) (n : Node)
    (h : findNode es k = some n) : List.Perm (n :: eraseNode es k) es := by
  induction es with
  | nil => simp [findNode] at h
  | cons m rest ih =>
    unfold eraseNode
    by_cases hm : m.key == k
    · have hnm : n = m := by
        unfold findNode at h
        rw [@List.find?_cons_of_pos Node (fun x => x.key == k) m rest hm] at h
        injection h with h'
        exact h'.symm
      rw [if_pos hm, hnm]
    · rw [if_neg hm]
      have hrest : findNode rest k = some n := by
        unfold findNode at h ⊢
        rwa [@List.find?_cons_of_neg Node (fun x => x.key == k) m rest hm] at h
      exact List.Perm.trans (List.Perm.swap m n (eraseNode rest k))
        (List.Perm.cons m (ih hrest))

theorem updateValue_find (es : List Node) (k v : Buf) (n : Node)
    (h : es.find? (fun x => x.key == k) = some n) :
    (updateValue es k v).find? (fun x => x.key == k) = some { n with value := v } := by
  induction es with
  | nil => simp at h
  | cons m rest ih =>
    unfold updateValue
    by_cases hm : m.key == k
    · rw [if_pos hm]
      rw [@List.find?_cons_of_pos Node (fun x => x.key == k) m rest hm] at h
      injection h with h'
      subst h'
      exact @List.find?_cons_of_pos Node (fun x => x.key == k)
        { key := m.key, value := v } rest hm
    · rw [if_neg hm]
      rw [@List.find?_cons_of_neg Node (fun x => x.key == k) m rest hm] at h
      rw [@List.find?_cons_of_neg Node (fun x => x.key == k) m (updateValue rest k v) hm]
      exact ih h

/-- Under byte-equality-faithful comparison, the chain walk finds a key
exactly when the probe key itself is stored in the chain. -/
theorem chainFind_eq (chain : List Buf) (k : Buf)
    (hwf : ∀ k' ∈ chain, k'.length < U32) (hk : k.length < U32) :
    (chainFind chain k).1 = if k ∈ chain then some k else none := by
  induction chain with
  | nil => simp [chainFind]
  | cons k' rest ih =>
    unfold chainFind
    have hk' : k'.length < U32 := hwf k' (by simp)
    by_cases he : k' = k
    · rw [if_pos (by rw [compareEq_iff hk' hk]; exact he)]
      rw [if_pos (by simp [he])]
      simp [he]
    · rw [if_neg (by rw [compareEq_iff hk' hk]; exact he)]
      simp only
      rw [ih (fun x hx => hwf x (by simp [hx]))]
      by_cases hm : k ∈ rest
      · rw [if_pos hm, if_pos (by simp [hm])]
      · rw [if_neg hm, if_neg (by simp [hm]; exact fun h => he h.symm)]

theorem chainRemove_eq_erase (chain : List Buf) (k : Buf)
    (hwf : ∀ k' ∈ chain, k'.length < U32) (hk : k.length < U32) :
    (chainRemove chain k).1 = chain.erase k := by
  induction chain with
  | nil => rfl
  | cons k' rest ih =>
    unfold chainRemove
    have hk' : k'.length < U32 := hwf k' (by simp)
    by_cases he : k' = k
    · rw [if_pos (by rw [compareEq_iff hk' hk]; exact he)]
      simp only [List.erase_cons]
      rw [if_pos (by simpa using he)]
    · rw [if_neg (by rw [compareEq_iff hk' hk]; exact he)]
      simp only [List.erase_cons]
      rw [if_neg (by simpa using he), ih (fun x hx => hwf x (by simp [hx]))]

/-- The hash-index invariant, phrased over the entry list, the bucket
table and the table length so that it is untouched by statistics-only
state changes: the table has exactly `hash_table_size` buckets; live keys
are non-empty, shorter than `2 ^ 32` bytes and pairwise distinct; and a key
is stored in exactly the chain of its hash bucket, each chain listing only
live keys of that bucket, without duplicates. -/
structure InvT (entries : List Node) (table : List (List Buf)) (hts : Nat) : Prop where
  tlen : table.length = hts
  tpos : 0 < hts
  knodup : (entries.map Node.key).Nodup
  kwf : ∀ k ∈ entries.map Node.key, k ≠ [] ∧ k.length < U32
  chain_sub : ∀ i, ∀ k ∈ table.getD i [], k ∈ entries.map Node.key ∧ default_hash k % hts = i
  chain_all : ∀ k ∈ entries.map Node.key, k ∈ table.getD (default_hash k % hts) []
  chain_nodup : ∀ i, (table.getD i []).Nodup

def Inv (c : Cache) : Prop := InvT c.entries c.table c.hash_table_size

theorem Inv_of_eq {c c' : Cache} (h1 : c'.entries = c.entries) (h2 : c'.table = c.table)
    (h3 : c'.hash_table_size = c.hash_table_size) (h : Inv c) : Inv c' := by
  unfold Inv at *
  rw [h1, h2, h3]
  exact h

theorem InvT_perm {entries entries' : List Node} {table : List (List Buf)} {hts : Nat}
    (hp : List.Perm (entries'.map Node.key) (entries.map Node.key))
    (h : InvT entries table hts) : InvT entries' table hts := by
  refine ⟨h.tlen, h.tpos, hp.nodup_iff.mpr h.knodup, ?_, ?_, ?_, h.chain_nodup⟩
  · intro k hk
    exact h.kwf k (hp.mem_iff.mp hk)
  · intro i k hk
    obtain ⟨hm, hh⟩ := h.chain_sub i k hk
    exact ⟨hp.mem_iff.mpr hm, hh⟩
  · intro k hk
    exact h.chain_all k (hp.mem_iff.mp hk)

end LRU

namespace LRU

theorem getD_set_self (l : List (List Buf)) (i : Nat) (x : List Buf) (h : i < l.length) :
    (l.set i x).getD i [] = x := by
  rw [List.getD_eq_getElem?_getD, List.getElem?_set_self h]
  rfl

theorem getD_set_ne (l : List (List Buf)) (i j : Nat) (x : List Buf) (h : i ≠ j) :
    (l.set i x).getD j [] = l.getD j [] := by
  rw [List.getD_eq_getElem?_getD, List.getElem?_set_ne h, ← List.getD_eq_getElem?_getD]

theorem mem_of_getLast? {α : Type} {l : List α} {x : α} (h : l.getLast? = some x) : x ∈ l := by
  have hne : l ≠ [] := by
    intro hnil
    rw [hnil] at h
    simp at h
  have := List.getLast?_eq_getLast l hne
  rw [this] at h
  injection h with h'
  rw [← h']
  exact List.getLast_mem hne

theorem erase_getLast {l : List Buf} {x : Buf} (hnd : l.Nodup) (hg : l.getLast? = some x) :
    l.erase x = l.dropLast := by
  have hne : l ≠ [] := by
    intro hnil
    rw [hnil] at hg
    simp at hg
  have hx : x = l.getLast hne := by
    have := List.getLast?_eq_getLast l hne
    rw [this] at hg
    injection hg with h'
    exact h'.symm
  have hsplit : l = l.dropLast ++ [l.getLast hne] := (List.dropLast_append_getLast hne).symm
  have hnotin : l.getLast hne ∉ l.dropLast := by
    intro hmem
    have hnd2 : (l.dropLast ++ [l.getLast hne]).Nodup := by rw [← hsplit]; exact hnd
    rw [List.nodup_append] at hnd2
    exact hnd2.2.2 hmem (by simp)
  conv_lhs => rw [hsplit]
  rw [hx, List.erase_append_right _ hnotin]
  simp

theorem find_none_iff (c : Cache) (k : Buf) (hInv : Inv c) (hk : k.length < U32) :
    (find_in_hash_table c k).1 = c.entries.find? (fun n => n.key == k) := by
  have hi : InvT c.entries c.table c.hash_table_size := hInv
  have hchainwf : ∀ k' ∈ chainOf c (hash_key c k), k'.length < U32 := by
    intro k' hk'
    exact (hi.kwf k' (hi.chain_sub (hash_key c k) k' hk').1).2
  have hdef : (find_in_hash_table c k).1 =
      (match (chainFind (chainOf c (hash_key c k)) k).1 with
       | some k' => c.entries.find? (fun n => n.key == k')
       | none => none) := rfl
  rw [hdef, chainFind_eq _ _ hchainwf hk]
  by_cases hm : k ∈ chainOf c (hash_key c k)
  · rw [if_pos hm]
  · rw [if_neg hm]
    symm
    rw [List.find?_eq_none]
    intro n hn hpk
    have hk' : n.key = k := by simpa using hpk
    have hmem : k ∈ c.entries.map Node.key := by
      rw [← hk']
      exact List.mem_map_of_mem _ hn
    exact hm (hi.chain_all k hmem)

theorem evict_table_some (c : Cache) (lru : Node) (hg : c.entries.getLast? = some lru) :
    (evict_lru c).2.table =
      c.table.set (hash_key c lru.key)
        (chainRemove (chainOf c (hash_key c lru.key)) lru.key).1 := by
  unfold evict_lru
  rw [hg]
  simp only
  unfold remove_from_hash_table
  repeat' split
  all_goals simp [chainOf, hash_key]

theorem InvT_insert {entries : List Node} {table : List (List Buf)} {hts : Nat}
    (k v : Buf) (h : InvT entries table hts)
    (hk1 : k ≠ []) (hk2 : k.length < U32)
    (hfresh : k ∉ entries.map Node.key) :
    InvT (⟨k, v⟩ :: entries)
      (table.set (default_hash k % hts) (k :: table.getD (default_hash k % hts) []))
      hts := by
  have hi0lt : default_hash k % hts < table.length := by
    rw [h.tlen]
    exact Nat.mod_lt _ h.tpos
  refine ⟨?_, h.tpos, ?_, ?_, ?_, ?_, ?_⟩
  · rw [List.length_set]
    exact h.tlen
  · rw [List.map_cons, List.nodup_cons]
    exact ⟨hfresh, h.knodup⟩
  · intro k' hk'
    rw [List.map_cons, List.mem_cons] at hk'
    rcases hk' with he | hm
    · rw [he]
      exact ⟨hk1, hk2⟩
    · exact h.kwf k' hm
  · intro i k' hk'
    by_cases hii : i = default_hash k % hts
    · subst hii
      rw [getD_set_self _ _ _ hi0lt] at hk'
      rcases List.mem_cons.mp hk' with he | hm
      · subst he
        exact ⟨by simp, rfl⟩
      · obtain ⟨hmm, hh⟩ := h.chain_sub _ k' hm
        exact ⟨by simp [hmm], hh⟩
    · rw [getD_set_ne _ _ _ _ (fun he => hii he.symm)] at hk'
      obtain ⟨hmm, hh⟩ := h.chain_sub i k' hk'
      exact ⟨by simp [hmm], hh⟩
  · intro k' hk'
    rw [List.map_cons, List.mem_cons] at hk'
    rcases hk' with he | hm
    · subst he
      rw [getD_set_self _ _ _ hi0lt]
      simp
    · have hold := h.chain_all k' hm
      by_cases hii : default_hash k' % hts = default_hash k % hts
      · rw [hii, getD_set_self _ _ _ hi0lt]
        exact List.mem_cons_of_mem _ (by rw [← hii]; exact hold)
      · rw [getD_set_ne _ _ _ _ (fun he => hii he.symm)]
        exact hold
  · intro i
    by_cases hii : i = default_hash k % hts
    · subst hii
      rw [getD_set_self _ _ _ hi0lt, List.nodup_cons]
      refine ⟨?_, h.chain_nodup _⟩
      intro hm
      exact hfresh (h.chain_sub _ k hm).1
    · rw [getD_set_ne _ _ _ _ (fun he => hii he.symm)]
      exact h.chain_nodup i

theorem InvT_remove {entries entries' : List Node} {table : List (List Buf)} {hts : Nat}
    (k0 : Buf) (h : InvT entries table hts)
    (hk0 : k0 ∈ entries.map Node.key)
    (hkeys : entries'.map Node.key = (entries.map Node.key).erase k0) :
    InvT entries'
      (table.set (default_hash k0 % hts)
        ((table.getD (default_hash k0 % hts) []).erase k0))
      hts := by
  have hi0lt : default_hash k0 % hts < table.length := by
    rw [h.tlen]
    exact Nat.mod_lt _ h.tpos
  refine ⟨?_, h.tpos, ?_, ?_, ?_, ?_, ?_⟩
  · rw [List.length_set]
    exact h.tlen
  · rw [hkeys]
    exact h.knodup.erase _
  · intro k' hk'
    rw [hkeys] at hk'
    exact h.kwf k' (List.mem_of_mem_erase hk')
  · intro i k' hk'
    by_cases hii : i = default_hash k0 % hts
    · subst hii
      rw [getD_set_self _ _ _ hi0lt] at hk'
      have hne : k' ≠ k0 ∧ k' ∈ table.getD (default_hash k0 % hts) [] :=
        ((h.chain_nodup _).mem_erase_iff).mp hk'
      obtain ⟨hmm, hh⟩ := h.chain_sub _ k' hne.2
      refine ⟨?_, hh⟩
      rw [hkeys]
      exact (h.knodup.mem_erase_iff).mpr ⟨hne.1, hmm⟩
    · rw [getD_set_ne _ _ _ _ (fun he => hii he.symm)] at hk'
      obtain ⟨hmm, hh⟩ := h.chain_sub i k' hk'
      have hne : k' ≠ k0 := by
        intro he
        subst he
        exact hii hh.symm
      refine ⟨?_, hh⟩
      rw [hkeys]
      exact (h.knodup.mem_erase_iff).mpr ⟨hne, hmm⟩
  · intro k' hk'
    rw [hkeys] at hk'
    have hne : k' ≠ k0 ∧ k' ∈ entries.map Node.key :=
      (h.knodup.mem_erase_iff).mp hk'
    have hold := h.chain_all k' hne.2
    by_cases hii : default_hash k' % hts = default_hash k0 % hts
    · rw [hii, getD_set_self _ _ _ hi0lt]
      exact ((h.chain_nodup _).mem_erase_iff).mpr ⟨hne.1, by rw [← hii]; exact hold⟩
    · rw [getD_set_ne _ _ _ _ (fun he => hii he.symm)]
      exact hold
  · intro i
    by_cases hii : i = default_hash k0 % hts
    · subst hii
      rw [getD_set_self _ _ _ hi0lt]
      exact (h.chain_nodup _).erase _
    · rw [getD_set_ne _ _ _ _ (fun he => hii he.symm)]
      exact h.chain_nodup i

theorem Inv_evict (c : Cache) (h : Inv c) : Inv (evict_lru c).2 := by
  rcases hgl : c.entries.getLast? with _ | lru
  · rw [evict_nil_state c (List.getLast?_eq_none_iff.mp hgl)]
    exact h
  · have hi : InvT c.entries c.table c.hash_table_size := h
    have hmem : lru ∈ c.entries := mem_of_getLast? hgl
    have hkmem : lru.key ∈ c.entries.map Node.key := List.mem_map_of_mem _ hmem
    have hkwf := hi.kwf lru.key hkmem
    have hchainwf : ∀ k' ∈ chainOf c (hash_key c lru.key), k'.length < U32 := by
      intro k' hk'
      exact (hi.kwf k' (hi.chain_sub _ k' hk').1).2
    have hklast : (c.entries.map Node.key).getLast? = some lru.key := by
      rw [List.getLast?_map, hgl]
      rfl
    have hkeys : c.entries.dropLast.map Node.key = (c.entries.map Node.key).erase lru.key := by
      rw [erase_getLast hi.knodup hklast, List.map_dropLast]
    show InvT (evict_lru c).2.entries (evict_lru c).2.table (evict_lru c).2.hash_table_size
    rw [evict_entries_some c _ hgl, evict_table_some c _ hgl, evict_hts,
      chainRemove_eq_erase _ _ hchainwf hkwf.2]
    exact InvT_remove lru.key hi hkmem hkeys

end LRU

namespace LRU

theorem Inv_bump (c : Cache) (n : Nat) (h : Inv c) : Inv (bumpCollisions c n) :=
  Inv_of_eq (bump_entries c n) (bump_table c n) (bump_hts c n) h

theorem Inv_mtf (c : Cache) (k : Buf) (h : Inv c) : Inv (move_to_front c k) := by
  unfold move_to_front
  rcases hn : findNode c.entries k with _ | n
  · exact h
  · simp only
    show InvT (n :: eraseNode c.entries k) c.table c.hash_table_size
    exact InvT_perm ((findNode_erase_perm c.entries k n hn).map Node.key) h

theorem find_some_mem (c : Cache) (k : Buf) (node : Node)
    (hf : (find_in_hash_table c k).1 = some node) :
    node ∈ c.entries ∧ node.key ∈ c.entries.map Node.key := by
  have hdef : (find_in_hash_table c k).1 =
      (match (chainFind (chainOf c (hash_key c k)) k).1 with
       | some k' => c.entries.find? (fun n => n.key == k')
       | none => none) := rfl
  rw [hdef] at hf
  rcases hcf : (chainFind (chainOf c (hash_key c k)) k).1 with _ | k'
  · rw [hcf] at hf
    simp at hf
  · rw [hcf] at hf
    simp only at hf
    have hmem := List.mem_of_find?_eq_some hf
    exact ⟨hmem, List.mem_map_of_mem _ hmem⟩

theorem find_some_key (c : Cache) (k : Buf) (node : Node) (hInv : Inv c)
    (hk : k.length < U32) (hf : (find_in_hash_table c k).1 = some node) :
    node.key = k ∧ c.entries.find? (fun n => n.key == k) = some node := by
  have h2 := hf
  rw [find_none_iff c k hInv hk] at h2
  have hp := List.find?_some h2
  exact ⟨by simpa using hp, h2⟩

theorem length_ne_zero_of_cond {k : Buf} (h : ¬ k.length = 0) : k ≠ [] := by
  intro hnil
  rw [hnil] at h
  simp at h

theorem Inv_put_okO (c : Cache) (k v : Buf) (hk32 : k.length < U32) (h : Inv c) :
    Inv (lru_cache_put c k v okO).2.1 := by
  unfold lru_cache_put
  split
  · exact h
  · rename_i hval
    have hk1 : k ≠ [] := length_ne_zero_of_cond (fun hz => hval (Or.inl hz))
    rcases hf : (find_in_hash_table c k).1 with _ | node
    · simp only [hf, find_snd, create_node_okO]
      have hfresh : k ∉ c.entries.map Node.key := by
        rw [find_none_iff c k h hk32] at hf
        intro hmem
        rcases List.mem_map.mp hmem with ⟨n, hn, hkey⟩
        rw [List.find?_eq_none] at hf
        exact hf n hn (by simpa using hkey)
      set CB := bumpCollisions c (chainFind (chainOf c (hash_key c k)) k).2 with hCB
      have hInvCB : Inv CB := Inv_bump c _ h
      by_cases hfull : CB.capacity ≤ CB.entries.length
      · rw [if_pos hfull]
        by_cases hne : c.entries = []
        · have hCBnil : CB.entries = [] := by rw [hCB]; simpa using hne
          have hev1 : (evict_lru CB).1 = LRU_ERROR_NOT_FOUND := by
            unfold evict_lru
            rw [hCBnil]
            rfl
          rw [if_pos (by rw [hev1]; norm_num [LRU_ERROR_NOT_FOUND, LRU_SUCCESS])]
          exact Inv_of_eq (by rw [evict_nil_state CB hCBnil]) (by rw [evict_nil_state CB hCBnil])
            (by rw [evict_nil_state CB hCBnil]) hInvCB
        · have hg := List.getLast?_eq_getLast _ hne
          have hgB : CB.entries.getLast? = some (c.entries.getLast hne) := by
            rw [hCB]; simpa using hg
          rw [if_neg (by simp [evict_succ_some CB _ hgB])]
          rw [add_okO]
          rw [if_neg (by simp)]
          have hInvE : Inv (evict_lru CB).2 := Inv_evict CB hInvCB
          have hfreshE : k ∉ (evict_lru CB).2.entries.map Node.key := by
            rw [evict_entries_some CB _ hgB, hCB, bump_entries]
            intro hmem
            rw [List.map_dropLast] at hmem
            exact hfresh ((List.dropLast_sublist _).mem hmem)
          split
          · exact InvT_insert k v hInvE hk1 hk32 hfreshE
          · exact InvT_insert k v hInvE hk1 hk32 hfreshE
      · rw [if_neg hfull]
        rw [if_neg (show ¬(((LRU_SUCCESS, CB) : Int × Cache).1 ≠ LRU_SUCCESS) by simp)]
        rw [add_okO]
        rw [if_neg (by simp)]
        have hfreshB : k ∉ CB.entries.map Node.key := by
          rw [hCB, bump_entries]
          exact hfresh
        split
        · exact InvT_insert k v hInvCB hk1 hk32 hfreshB
        · exact InvT_insert k v hInvCB hk1 hk32 hfreshB
    · simp only [hf, find_snd]
      rw [if_neg (by simp [okO, AllocOracle.next])]
      obtain ⟨hkey, hfind⟩ := find_some_key c k node h hk32 hf
      -- the value update keeps the key sequence, and the move-to-front is a
      -- permutation of it
      have hupd : (updateValue c.entries node.key v).find? (fun x => x.key == node.key) =
          some { node with value := v } := by
        apply updateValue_find
        rw [hkey]
        exact hfind
      simp only
      have hInv1 : Inv { bumpCollisions c (chainFind (chainOf c (hash_key c k)) k).2 with
          entries := updateValue
            (bumpCollisions c (chainFind (chainOf c (hash_key c k)) k).2).entries node.key v } := by
        show InvT _ _ _
        simp only [bump_entries, bump_table, bump_hts]
        exact InvT_perm (by rw [updateValue_map_key]) h
      exact Inv_mtf _ _ hInv1

theorem Inv_get (c : Cache) (k : Buf) (o : AllocOracle) (h : Inv c) :
    Inv (lru_cache_get c k o).2.2.1 := by
  unfold lru_cache_get
  split
  · exact h
  · rcases hf : (find_in_hash_table c k).1 with _ | node <;> simp only [hf, find_snd]
    · split
      · exact Inv_of_eq (by simp) (by simp) (by simp) h
      · exact Inv_bump c _ h
    · have hInv1 : Inv (move_to_front
          (bumpCollisions c (chainFind (chainOf c (hash_key c k)) k).2) node.key) :=
        Inv_mtf _ _ (Inv_bump c _ h)
      split
      · exact hInv1
      · split
        · exact Inv_of_eq (by simp) (by simp) (by simp) hInv1
        · exact hInv1

theorem Inv_peek (c : Cache) (k : Buf) (o : AllocOracle) (h : Inv c) :
    Inv (lru_cache_peek c k o).2.2.1 := by
  rcases peek_state c k o with ⟨n, hn⟩
  rw [hn]
  exact Inv_bump c n h

theorem Inv_contains (c : Cache) (k : Buf) (h : Inv c) :
    Inv (lru_cache_contains c k).2 := by
  rcases contains_state c k with ⟨n, hn⟩
  rw [hn]
  exact Inv_bump c n h

theorem Inv_delete (c : Cache) (k : Buf) (h : Inv c) :
    Inv (lru_cache_delete c k).2 := by
  unfold lru_cache_delete
  split
  · exact h
  · rcases hf : (find_in_hash_table c k).1 with _ | node <;> simp only [hf, find_snd]
    · exact Inv_bump c _ h
    · have hi : InvT c.entries c.table c.hash_table_size := h
      have hmem := (find_some_mem c k node hf).2
      have hkwf := hi.kwf node.key hmem
      have hchainwf : ∀ k' ∈ c.table.getD (default_hash node.key % c.hash_table_size) [],
          k'.length < U32 := by
        intro k' hk'
        exact (hi.kwf k' (hi.chain_sub _ k' hk').1).2
      have hInvCB : Inv (bumpCollisions c (chainFind (chainOf c (hash_key c k)) k).2) :=
        Inv_bump c _ h
      have hrem : InvT (eraseNode c.entries node.key)
          (c.table.set (default_hash node.key % c.hash_table_size)
            ((c.table.getD (default_hash node.key % c.hash_table_size) []).erase node.key))
          c.hash_table_size :=
        InvT_remove node.key hi hmem (eraseNode_map_key _ _)
      have htab : (remove_from_hash_table
          (bumpCollisions c (chainFind (chainOf c (hash_key c k)) k).2) node.key).table =
          c.table.set (default_hash node.key % c.hash_table_size)
            ((c.table.getD (default_hash node.key % c.hash_table_size) []).erase node.key) := by
        unfold remove_from_hash_table
        simp only [bump_table, bump_hts]
        rw [show hash_key (bumpCollisions c (chainFind (chainOf c (hash_key c k)) k).2) node.key
              = default_hash node.key % c.hash_table_size from by
            unfold hash_key; rw [bump_hts]]
        rw [show chainOf (bumpCollisions c (chainFind (chainOf c (hash_key c k)) k).2)
              (default_hash node.key % c.hash_table_size)
              = c.table.getD (default_hash node.key % c.hash_table_size) [] from by
            unfold chainOf; rw [bump_table]]
        rw [chainRemove_eq_erase _ _ hchainwf hkwf.2]
      split
      · show InvT _ _ _
        simp only [remove_entries, bump_entries, remove_from_hash_table_hts, bump_hts, htab]
        exact hrem
      · show InvT _ _ _
        simp only [remove_entries, bump_entries, remove_from_hash_table_hts, bump_hts, htab]
        exact hrem

theorem getD_map_nil (table : List (List Buf)) (i : Nat) :
    (table.map (fun _ => ([] : List Buf))).getD i [] = [] := by
  rw [List.getD_eq_getElem?_getD, List.getElem?_map]
  rcases table[i]? with _ | x <;> rfl

theorem Inv_clear (c : Cache) (h : Inv c) : Inv (lru_cache_clear c) := by
  have hi : InvT c.entries c.table c.hash_table_size := h
  have hbody : InvT ([] : List Node) (c.table.map (fun _ => []))
      c.hash_table_size := by
    refine ⟨by rw [List.length_map]; exact hi.tlen, hi.tpos, by simp, by simp, ?_, by simp, ?_⟩
    · intro i k hk
      rw [getD_map_nil] at hk
      simp at hk
    · intro i
      rw [getD_map_nil]
      simp
  simp only [lru_cache_clear]
  split
  · exact hbody
  · exact hbody

theorem Inv_evictTimes (n : Nat) : ∀ c : Cache, Inv c → Inv (evictTimes c n) := by
  induction n with
  | zero => intro c h; exact h
  | succ n ih =>
    intro c h
    exact ih (evict_lru c).2 (Inv_evict c h)

theorem Inv_resize (c : Cache) (n : Nat) (h : Inv c) : Inv (lru_cache_resize c n).2 := by
  unfold lru_cache_resize
  split
  · exact h
  · simp only
    exact Inv_evictTimes _ _ (Inv_of_eq rfl rfl rfl h)

theorem Inv_applyOp (c : Cache) (op : Op) (h : Inv c) (hwf : opWF op = true) :
    Inv (applyOp c op) := by
  cases op with
  | put k v =>
    have hk32 : k.length < U32 := by
      have : keyOK k = true := by
        simp [opWF] at hwf
        exact hwf.1
      simp [keyOK] at this
      exact this.2
    exact Inv_put_okO c k v hk32 h
  | get k => exact Inv_get c k okO h
  | peek k => exact Inv_peek c k okO h
  | contains k => exact Inv_contains c k h
  | del k => exact Inv_delete c k h
  | clear => exact Inv_clear c h
  | resize n => exact Inv_resize c n h

end LRU

namespace LRU

theorem getD_replicate_nil (n i : Nat) :
    (List.replicate n ([] : List Buf)).getD i [] = [] := by
  rw [List.getD_eq_getElem?_getD]
  rcases hx : (List.replicate n ([] : List Buf))[i]? with _ | x
  · rfl
  · have hmem := List.getElem?_mem hx
    rw [(List.mem_replicate.mp hmem).2]
    rfl

theorem Inv_create (cap : Nat) (h1 : 1 ≤ cap) (h2 : cap * 4 / 3 ≤ 2 ^ 32) :
    Inv (lru_cache_create cap) := by
  have hpos : 0 < calculate_hash_table_size (if cap < 1 then 1024 else cap) := by
    rw [if_neg (by omega), calculate_hash_table_size_eq h1 h2]
    exact Nat.pos_pow_of_pos _ (by norm_num)
  show InvT [] (List.replicate (calculate_hash_table_size (if cap < 1 then 1024 else cap)) [])
      (calculate_hash_table_size (if cap < 1 then 1024 else cap))
  refine ⟨List.length_replicate _ _, hpos, by simp, by simp, ?_, by simp, ?_⟩
  · intro i k hk
    rw [getD_replicate_nil] at hk
    simp at hk
  · intro i
    rw [getD_replicate_nil]
    simp

theorem Inv_runFrom (ops : List Op) : ∀ c : Cache, Inv c → opsWF ops = true →
    Inv (runFrom c ops) := by
  induction ops with
  | nil => intro c h _; exact h
  | cons op rest ih =>
    intro c h hwf
    have hop : opWF op = true := by
      simp [opsWF] at hwf
      exact hwf.1
    have hrest : opsWF rest = true := by
      simp [opsWF] at hwf ⊢
      exact hwf.2
    exact ih (applyOp c op) (Inv_applyOp c op h hop) hrest

theorem Inv_runOps (cap : Nat) (ops : List Op) (h1 : 1 ≤ cap)
    (h2 : cap * 4 / 3 ≤ 2 ^ 32) (hwf : opsWF ops = true) : Inv (runOps cap ops) :=
  Inv_runFrom ops _ (Inv_of_eq rfl rfl rfl (Inv_create cap h1 h2)) hwf

theorem runOps_cap_pos (cap : Nat) (ops : List Op) : 1 ≤ (runOps cap ops).capacity := by
  have hstart1 : 1 ≤ (lru_cache_set_eviction_callback (lru_cache_create cap) true).capacity := by
    simp only [lru_cache_set_eviction_callback, lru_cache_create]
    split <;> omega
  have hstart2 :
      (lru_cache_set_eviction_callback (lru_cache_create cap) true).entries.length ≤
        (lru_cache_set_eviction_callback (lru_cache_create cap) true).capacity := by
    simp only [lru_cache_set_eviction_callback, lru_cache_create]
    split <;> simp
  exact (runFrom_inv ops _ hstart1 hstart2).1

theorem mtf_entries_of_found (c : Cache) (k : Buf) (n : Node)
    (h : findNode c.entries k = some n) :
    (move_to_front c k).entries = n :: eraseNode c.entries k := by
  unfold move_to_front
  rw [h]

theorem put_head (c : Cache) (k v : Buf) (hInv : Inv c) (hcap : 1 ≤ c.capacity)
    (hk32 : k.length < U32) (hval : ¬(k.length = 0 ∨ v.length = 0)) :
    (lru_cache_put c k v okO).1 = LRU_SUCCESS ∧
    ∃ rest, (lru_cache_put c k v okO).2.1.entries = (⟨k, v⟩ : Node) :: rest := by
  unfold lru_cache_put
  rw [if_neg hval]
  rcases hf : (find_in_hash_table c k).1 with _ | node
  · simp only [hf, find_snd, create_node_okO]
    set CB := bumpCollisions c (chainFind (chainOf c (hash_key c k)) k).2 with hCB
    by_cases hfull : CB.capacity ≤ CB.entries.length
    · rw [if_pos hfull]
      have hne : c.entries ≠ [] := by
        intro hnil
        rw [hCB, bump_capacity, bump_entries, hnil] at hfull
        simp at hfull
        omega
      have hg := List.getLast?_eq_getLast _ hne
      have hgB : CB.entries.getLast? = some (c.entries.getLast hne) := by
        rw [hCB]; simpa using hg
      rw [if_neg (by simp [evict_succ_some CB _ hgB])]
      rw [add_okO]
      rw [if_neg (by simp)]
      constructor
      · split <;> rfl
      · split
        · exact ⟨_, rfl⟩
        · exact ⟨_, rfl⟩
    · rw [if_neg hfull]
      rw [if_neg (show ¬(((LRU_SUCCESS, CB) : Int × Cache).1 ≠ LRU_SUCCESS) by simp)]
      rw [add_okO]
      rw [if_neg (by simp)]
      constructor
      · split <;> rfl
      · split
        · exact ⟨_, rfl⟩
        · exact ⟨_, rfl⟩
  · simp only [hf, find_snd]
    rw [if_neg (by simp [okO, AllocOracle.next])]
    obtain ⟨hkey, hfind⟩ := find_some_key c k node hInv hk32 hf
    have hupd : (updateValue c.entries node.key v).find? (fun x => x.key == node.key) =
        some { node with value := v } := by
      apply updateValue_find
      rw [hkey]
      exact hfind
    have hfn : findNode ({ bumpCollisions c (chainFind (chainOf c (hash_key c k)) k).2 with
        entries := updateValue
          (bumpCollisions c (chainFind (chainOf c (hash_key c k)) k).2).entries
          node.key v }).entries node.key = some { node with value := v } := by
      show findNode (updateValue
        (bumpCollisions c (chainFind (chainOf c (hash_key c k)) k).2).entries node.key v)
        node.key = some { node with value := v }
      rw [bump_entries]
      exact hupd
    have he : ({ node with value := v } : Node) = ⟨k, v⟩ := by
      rw [← hkey]
    have hments := mtf_entries_of_found _ node.key _ hfn
    rw [he] at hments
    exact ⟨rfl, _, hments⟩

theorem get_found (c : Cache) (k : Buf) (node : Node) (hk0 : ¬ k.length = 0)
    (hf : (find_in_hash_table c k).1 = some node) :
    (lru_cache_get c k okO).1 = LRU_SUCCESS ∧
    (lru_cache_get c k okO).2.1 = some node.value := by
  unfold lru_cache_get
  rw [if_neg hk0]
  simp only [hf, find_snd]
  rw [if_neg (by simp [okO, AllocOracle.next])]
  exact ⟨rfl, rfl⟩

/-- C5: on a cache reached by any sequence of valid operations (capacity at
least 1 and small enough for the bucket table to be well defined), a `put`
of a non-empty key and value followed by a `get` of the same key succeeds
and returns exactly the stored bytes.  The returned buffer is produced by
the allocator's deep-copy (`copy_fn` in `lru_cache_get`), so the caller
owns it; byte equality is what the embedding can state. -/
theorem C5_thm (cap : Nat) (ops : List Op) (k v : Buf)
    (hcap1 : 1 ≤ cap) (hcap2 : cap * 4 / 3 ≤ 2 ^ 32)
    (hops : opsWF ops = true)
    (hk : ¬ k.length = 0) (hk32 : k.length < U32) (hv : ¬ v.length = 0) :
    (lru_cache_put (runOps cap ops) k v okO).1 = LRU_SUCCESS ∧
    (lru_cache_get (lru_cache_put (runOps cap ops) k v okO).2.1 k okO).1 = LRU_SUCCESS ∧
    (lru_cache_get (lru_cache_put (runOps cap ops) k v okO).2.1 k okO).2.1 = some v := by
  have hInv : Inv (runOps cap ops) := Inv_runOps cap ops hcap1 hcap2 hops
  have hcap : 1 ≤ (runOps cap ops).capacity := runOps_cap_pos cap ops
  have hval : ¬(k.length = 0 ∨ v.length = 0) := fun h => h.elim hk hv
  obtain ⟨hputS, rest, hentries⟩ := put_head (runOps cap ops) k v hInv hcap hk32 hval
  have hInv2 : Inv (lru_cache_put (runOps cap ops) k v okO).2.1 :=
    Inv_put_okO (runOps cap ops) k v hk32 hInv
  have hfind2 : (find_in_hash_table (lru_cache_put (runOps cap ops) k v okO).2.1 k).1 =
      some ⟨k, v⟩ := by
    rw [find_none_iff _ k hInv2 hk32, hentries]
    exact List.find?_cons_of_pos _ (by simp)
  obtain ⟨hgS, hgV⟩ := get_found _ k ⟨k, v⟩ hk hfind2
  exact ⟨hputS, hgS, hgV⟩

/-- C5 witness: the round trip evaluated on a concrete cache. -/
theorem C5_witness :
    (lru_cache_put (runOps 2 [Op.put [1] [1]]) [5] [6] okO).1 = LRU_SUCCESS ∧
    (lru_cache_get (lru_cache_put (runOps 2 [Op.put [1] [1]]) [5] [6] okO).2.1 [5] okO).1 =
      LRU_SUCCESS ∧
    (lru_cache_get (lru_cache_put (runOps 2 [Op.put [1] [1]]) [5] [6] okO).2.1 [5] okO).2.1 =
      some [6] :=
  C5_thm 2 [Op.put [1] [1]] [5] [6] (by norm_num) (by norm_num) (by decide)
    (by decide) (by decide) (by decide)

end LRU

namespace LRU

theorem put_evfn (c : Cache) (k v : Buf) (o : AllocOracle) :
    (lru_cache_put c k v o).2.1.has_eviction_fn = c.has_eviction_fn := by
  unfold lru_cache_put
  split
  · rfl
  · rcases hf : (find_in_hash_table c k).1 with _ | node
    · simp only [hf, find_snd]
      rcases hc : (create_node k v o).1 with _ | node2 <;> simp only [hc]
      · simp
      · repeat' split
        all_goals simp [evict_evfn, add_to_hash_table]
        all_goals repeat' split
        all_goals simp [evict_evfn]
    · simp only [hf, find_snd]
      repeat' split
      all_goals simp

theorem get_evfn (c : Cache) (k : Buf) (o : AllocOracle) :
    (lru_cache_get c k o).2.2.1.has_eviction_fn = c.has_eviction_fn := by
  unfold lru_cache_get
  split
  · rfl
  · rcases hf : (find_in_hash_table c k).1 with _ | node <;> simp only [hf, find_snd]
    all_goals repeat' split
    all_goals simp

/-- A failed embedded lookup means the probe key is not a live key (under the
hash-index coherence invariant and the in-scope key lengths). -/
theorem find_none_not_mem (c : Cache) (k : Buf) (hInv : Inv c) (hk32 : k.length < U32)
    (hf : (find_in_hash_table c k).1 = none) : k ∉ keysOf c := by
  rw [find_none_iff c k hInv hk32] at hf
  intro hm
  obtain ⟨n, hn, hkey⟩ := List.mem_map.mp hm
  have := List.find?_eq_none.mp hf n hn
  simp [hkey] at this

/-- Conversely, the embedded lookup of a non-live key fails. -/
theorem not_mem_find_none (c : Cache) (k : Buf) (hInv : Inv c) (hk32 : k.length < U32)
    (hm : k ∉ keysOf c) : (find_in_hash_table c k).1 = none := by
  rw [find_none_iff c k hInv hk32]
  rw [List.find?_eq_none]
  intro n hn hp
  exact hm (List.mem_map.mpr ⟨n, hn, by simpa using hp⟩)

/-- `move_to_front` on the key level: the touched key moves to the head. -/
theorem mtf_keys (c : Cache) (k : Buf) (n : Node) (h : findNode c.entries k = some n) :
    keysOf (move_to_front c k) = n.key :: (keysOf c).erase k := by
  unfold keysOf
  rw [mtf_entries_of_found c k n h, List.map_cons, eraseNode_map_key]

/-- `lru_cache_put` on the key level (all allocations succeeding): an existing
key is touched to the head; a fresh key enters at the head, displacing the
recency-list tail exactly when the cache is at capacity. -/
theorem put_keys (c : Cache) (k v : Buf) (hInv : Inv c) (hcap : 1 ≤ c.capacity)
    (hk32 : k.length < U32) (hval : ¬(k.length = 0 ∨ v.length = 0)) :
    keysOf (lru_cache_put c k v okO).2.1 =
      if k ∈ keysOf c then k :: (keysOf c).erase k
      else if c.capacity ≤ c.entries.length then k :: (keysOf c).dropLast
      else k :: keysOf c := by
  unfold lru_cache_put
  rw [if_neg hval]
  rcases hf : (find_in_hash_table c k).1 with _ | node
  · have hfresh : k ∉ keysOf c := find_none_not_mem c k hInv hk32 hf
    rw [if_neg hfresh]
    simp only [hf, find_snd, create_node_okO]
    set CB := bumpCollisions c (chainFind (chainOf c (hash_key c k)) k).2 with hCB
    by_cases hfull : c.capacity ≤ c.entries.length
    · have hfullCB : CB.capacity ≤ CB.entries.length := by
        rw [hCB]; simpa using hfull
      rw [if_pos hfullCB, if_pos hfull]
      have hne : c.entries ≠ [] := by
        intro hnil
        rw [hnil] at hfull
        simp at hfull
        omega
      have hgB : CB.entries.getLast? = some (c.entries.getLast hne) := by
        rw [hCB, bump_entries]
        exact List.getLast?_eq_getLast _ hne
      rw [if_neg (show ¬((evict_lru CB).1 ≠ LRU_SUCCESS) by simp [evict_succ_some CB _ hgB])]
      rw [add_okO]
      rw [if_neg (show ¬((LRU_SUCCESS : Int) ≠ LRU_SUCCESS) by simp)]
      split <;>
        simp [keysOf, evict_entries_some CB _ hgB, hCB, List.map_dropLast]
    · have hfullCB : ¬(CB.capacity ≤ CB.entries.length) := by
        rw [hCB]; simpa using hfull
      rw [if_neg hfullCB, if_neg hfull]
      rw [if_neg (show ¬(((LRU_SUCCESS, CB) : Int × Cache).1 ≠ LRU_SUCCESS) by simp)]
      rw [add_okO]
      rw [if_neg (show ¬((LRU_SUCCESS : Int) ≠ LRU_SUCCESS) by simp)]
      split <;> simp [keysOf, hCB]
  · obtain ⟨hkey, hfind⟩ := find_some_key c k node hInv hk32 hf
    have hmem : k ∈ keysOf c := by
      rw [← hkey]
      exact (find_some_mem c k node hf).2
    rw [if_pos hmem]
    simp only [hf, find_snd]
    set CB := bumpCollisions c (chainFind (chainOf c (hash_key c k)) k).2 with hCB
    rw [if_neg (by simp [okO, AllocOracle.next])]
    have hupd : (updateValue c.entries node.key v).find? (fun x => x.key == node.key) =
        some { node with value := v } := by
      apply updateValue_find
      rw [hkey]
      exact hfind
    have hfn : findNode ({ CB with entries := updateValue CB.entries node.key v }).entries
        node.key = some { node with value := v } := by
      show findNode (updateValue CB.entries node.key v) node.key = some { node with value := v }
      rw [hCB, bump_entries]
      exact hupd
    have hres : keysOf (move_to_front { CB with entries := updateValue CB.entries node.key v }
        node.key) = k :: (keysOf c).erase k := by
      rw [mtf_keys _ node.key _ hfn]
      show node.key :: ((updateValue CB.entries node.key v).map Node.key).erase node.key =
        k :: (keysOf c).erase k
      rw [updateValue_map_key, hCB, bump_entries, hkey]
      rfl
    exact hres


/-- `lru_cache_get` on the key level: a hit touches the key to the head, a
miss leaves the recency order unchanged. -/
theorem get_keys (c : Cache) (k : Buf) (hInv : Inv c) (hk32 : k.length < U32)
    (hk0 : ¬ k.length = 0) :
    keysOf (lru_cache_get c k okO).2.2.1 =
      if k ∈ keysOf c then k :: (keysOf c).erase k else keysOf c := by
  unfold lru_cache_get
  rw [if_neg hk0]
  rcases hf : (find_in_hash_table c k).1 with _ | node
  · rw [if_neg (find_none_not_mem c k hInv hk32 hf)]
    simp only [hf, find_snd]
    split <;> simp [keysOf]
  · obtain ⟨hkey, hfind⟩ := find_some_key c k node hInv hk32 hf
    have hmem : k ∈ keysOf c := by
      rw [← hkey]
      exact (find_some_mem c k node hf).2
    rw [if_pos hmem]
    simp only [hf, find_snd]
    set CB := bumpCollisions c (chainFind (chainOf c (hash_key c k)) k).2 with hCB
    rw [if_neg (by simp [okO, AllocOracle.next])]
    have hfn : findNode CB.entries node.key = some node := by
      rw [hCB, bump_entries]
      show c.entries.find? (fun n => n.key == node.key) = some node
      rw [hkey]
      exact hfind
    have hres : keysOf (move_to_front CB node.key) = k :: (keysOf c).erase k := by
      rw [mtf_keys _ node.key _ hfn]
      show node.key :: (CB.entries.map Node.key).erase node.key = k :: (keysOf c).erase k
      rw [hCB, bump_entries, hkey]
      rfl
    split <;> exact hres

/-- One `put`/`get` step of the implementation refines one step of the
reference LRU model, on the key level. -/
theorem applyOp_ref (c : Cache) (op : Op) (hInv : Inv c) (hcap : 1 ≤ c.capacity)
    (hwf : opWF op = true) (hpg : isPutGet op = true) :
    keysOf (applyOp c op) = refStep c.capacity (keysOf c) op := by
  cases op with
  | put k v =>
    simp only [opWF, keyOK, Bool.and_eq_true, Bool.not_eq_true', decide_eq_true_eq] at hwf
    have hk32 : k.length < U32 := hwf.1.2
    have hval : ¬(k.length = 0 ∨ v.length = 0) := fun h =>
      h.elim (isEmpty_false_length hwf.1.1) (isEmpty_false_length hwf.2)
    show keysOf (lru_cache_put c k v okO).2.1 = _
    rw [put_keys c k v hInv hcap hk32 hval]
    simp only [refStep]
    by_cases hm : k ∈ keysOf c
    · rw [if_pos hm, if_pos hm]
    · rw [if_neg hm, if_neg hm]
      have hlen : (keysOf c).length = c.entries.length := List.length_map _ _
      by_cases hfull : c.capacity ≤ c.entries.length
      · rw [if_pos hfull, if_pos (by rw [hlen]; exact hfull)]
      · rw [if_neg hfull, if_neg (by rw [hlen]; exact hfull)]
  | get k =>
    simp only [opWF, keyOK, Bool.and_eq_true, Bool.not_eq_true', decide_eq_true_eq] at hwf
    have hk32 : k.length < U32 := hwf.2
    have hk0 : ¬ k.length = 0 := isEmpty_false_length hwf.1
    show keysOf (lru_cache_get c k okO).2.2.1 = _
    rw [get_keys c k hInv hk32 hk0]
    simp only [refStep]
  | peek k => simp [isPutGet] at hpg
  | contains k => simp [isPutGet] at hpg
  | del k => simp [isPutGet] at hpg
  | clear => simp [isPutGet] at hpg
  | resize n => simp [isPutGet] at hpg

theorem applyOp_capacity_pg (c : Cache) (op : Op) (hpg : isPutGet op = true) :
    (applyOp c op).capacity = c.capacity := by
  cases op with
  | put k v => exact put_capacity c k v okO
  | get k => exact get_capacity c k okO
  | peek k => simp [isPutGet] at hpg
  | contains k => simp [isPutGet] at hpg
  | del k => simp [isPutGet] at hpg
  | clear => simp [isPutGet] at hpg
  | resize n => simp [isPutGet] at hpg

theorem applyOp_evfn_pg (c : Cache) (op : Op) (hpg : isPutGet op = true) :
    (applyOp c op).has_eviction_fn = c.has_eviction_fn := by
  cases op with
  | put k v => exact put_evfn c k v okO
  | get k => exact get_evfn c k okO
  | peek k => simp [isPutGet] at hpg
  | contains k => simp [isPutGet] at hpg
  | del k => simp [isPutGet] at hpg
  | clear => simp [isPutGet] at hpg
  | resize n => simp [isPutGet] at hpg

theorem runFrom_capacity_pg (ops : List Op) : ∀ c : Cache, ops.all isPutGet = true →
    (runFrom c ops).capacity = c.capacity := by
  induction ops with
  | nil => intro c _; rfl
  | cons op rest ih =>
    intro c hpg
    have h1 : isPutGet op = true ∧ rest.all isPutGet = true := by simpa using hpg
    show (runFrom (applyOp c op) rest).capacity = c.capacity
    rw [ih (applyOp c op) h1.2, applyOp_capacity_pg c op h1.1]

theorem runFrom_evfn_pg (ops : List Op) : ∀ c : Cache, ops.all isPutGet = true →
    (runFrom c ops).has_eviction_fn = c.has_eviction_fn := by
  induction ops with
  | nil => intro c _; rfl
  | cons op rest ih =>
    intro c hpg
    have h1 : isPutGet op = true ∧ rest.all isPutGet = true := by simpa using hpg
    show (runFrom (applyOp c op) rest).has_eviction_fn = c.has_eviction_fn
    rw [ih (applyOp c op) h1.2, applyOp_evfn_pg c op h1.1]

/-- The implementation's recency order refines the reference LRU model over
any valid `put`/`get` trace. -/
theorem runFrom_ref (ops : List Op) : ∀ c : Cache, Inv c → 1 ≤ c.capacity →
    opsWF ops = true → ops.all isPutGet = true →
    keysOf (runFrom c ops) = ops.foldl (refStep c.capacity) (keysOf c) := by
  induction ops with
  | nil => intro c _ _ _ _; rfl
  | cons op rest ih =>
    intro c hInv hcap hwf hpg
    have hwf1 : opWF op = true ∧ opsWF rest = true := by simpa [opsWF] using hwf
    have hpg1 : isPutGet op = true ∧ rest.all isPutGet = true := by simpa using hpg
    have hInv' : Inv (applyOp c op) := Inv_applyOp c op hInv hwf1.1
    have hcap' : 1 ≤ (applyOp c op).capacity := by
      rw [applyOp_capacity_pg c op hpg1.1]
      exact hcap
    show keysOf (runFrom (applyOp c op) rest) = _
    rw [ih (applyOp c op) hInv' hcap' hwf1.2 hpg1.2, List.foldl_cons,
      ← applyOp_ref c op hInv hcap hwf1.1 hpg1.1, applyOp_capacity_pg c op hpg1.1]


/-- C1: over every sequence of valid `put`/`get` calls against a fresh cache
(capacity at least 1 and small enough for the bucket table to be well
defined, callback registered as the driver does), the implementation's
recency order coincides with the independent reference LRU model `refLRU`
(most recently touched first, a touch being a `put` of an existing key or a
`get` hit); and when a `put` of a fresh key arrives with the cache at
capacity, the entry evicted — the one handed to the eviction callback — is
exactly the recency-list tail, whose key is the last (least recently
touched) key of the reference model. -/
theorem C1_thm (cap : Nat) (ops : List Op) (k v : Buf)
    (hcap1 : 1 ≤ cap) (hcap2 : cap * 4 / 3 ≤ 2 ^ 32)
    (hops : opsWF ops = true) (hpg : ops.all isPutGet = true)
    (hk32 : k.length < U32) (hval : ¬(k.length = 0 ∨ v.length = 0))
    (hfresh : k ∉ keysOf (runOps cap ops))
    (hfull : (runOps cap ops).entries.length = cap) :
    keysOf (runOps cap ops) = refLRU cap ops ∧
    ∃ lru : Node, (runOps cap ops).entries.getLast? = some lru ∧
      (lru_cache_put (runOps cap ops) k v okO).2.1.evictionLog =
        (runOps cap ops).evictionLog ++ [lru] ∧
      (refLRU cap ops).getLast? = some lru.key := by
  have hc0cap : (lru_cache_set_eviction_callback (lru_cache_create cap) true).capacity = cap := by
    show (if cap < 1 then 1024 else cap) = cap
    rw [if_neg (by omega)]
  have hInv0 : Inv (lru_cache_set_eviction_callback (lru_cache_create cap) true) :=
    Inv_of_eq rfl rfl rfl (Inv_create cap hcap1 hcap2)
  have hcap0 : 1 ≤ (lru_cache_set_eviction_callback (lru_cache_create cap) true).capacity := by
    rw [hc0cap]
    exact hcap1
  have href : keysOf (runOps cap ops) = refLRU cap ops := by
    show keysOf (runFrom (lru_cache_set_eviction_callback (lru_cache_create cap) true) ops) =
      refLRU cap ops
    rw [runFrom_ref ops _ hInv0 hcap0 hops hpg, hc0cap]
    rfl
  have hcapc : (runOps cap ops).capacity = cap := by
    show (runFrom (lru_cache_set_eviction_callback (lru_cache_create cap) true) ops).capacity =
      cap
    rw [runFrom_capacity_pg ops _ hpg, hc0cap]
  have hevc : (runOps cap ops).has_eviction_fn = true := by
    show (runFrom (lru_cache_set_eviction_callback
      (lru_cache_create cap) true) ops).has_eviction_fn = true
    rw [runFrom_evfn_pg ops _ hpg]
    rfl
  have hne : (runOps cap ops).entries ≠ [] := by
    intro hnil
    rw [hnil] at hfull
    simp at hfull
    omega
  have hg : (runOps cap ops).entries.getLast? = some ((runOps cap ops).entries.getLast hne) :=
    List.getLast?_eq_getLast _ hne
  have hInv : Inv (runOps cap ops) := Inv_runOps cap ops hcap1 hcap2 hops
  have hfnone : (find_in_hash_table (runOps cap ops) k).1 = none :=
    not_mem_find_none _ k hInv hk32 hfresh
  have hcaple : (runOps cap ops).capacity ≤ (runOps cap ops).entries.length := by
    rw [hcapc, hfull]
  have hlog := put_log_evict (runOps cap ops) k v _ hval hfnone hcaple hg hevc
  refine ⟨href, (runOps cap ops).entries.getLast hne, hg, hlog, ?_⟩
  rw [← href]
  show ((runOps cap ops).entries.map Node.key).getLast? =
    some ((runOps cap ops).entries.getLast hne).key
  rw [List.getLast?_map, hg]
  rfl

/-- C1 witness: a concrete full cache of capacity 1; the fresh `put` evicts
the single live entry, which is both the recency-list tail and the last key
of the reference model. -/
theorem C1_witness :
    keysOf (runOps 1 [Op.put [1] [1]]) = refLRU 1 [Op.put [1] [1]] ∧
    ∃ lru : Node, (runOps 1 [Op.put [1] [1]]).entries.getLast? = some lru ∧
      (lru_cache_put (runOps 1 [Op.put [1] [1]]) [2] [3] okO).2.1.evictionLog =
        (runOps 1 [Op.put [1] [1]]).evictionLog ++ [lru] ∧
      (refLRU 1 [Op.put [1] [1]]).getLast? = some lru.key :=
  C1_thm 1 [Op.put [1] [1]] [2] [3] (by decide) (by norm_num) (by decide) (by decide)
    (by decide) (by decide) (by decide) (by decide)

end LRU
